import Mathlib

/-!
# Verification of confit's identity and code-generation engine

A shallow embedding of `src/confit/meta.py` and `src/confit/__init__.py`
(the authoritative variants cited by the claims): the `CallSpec` canonical
argument map and its specificity order, the `Specced` identity key and the
Python-2 hash pipeline it feeds (`json.dumps` + string/tuple/frozenset
hashing), the `Bash`/`ButOnce`/`Wrapper`/`Task` rendering chain, and the
script assembler.  Machine integers are modelled as `Nat` reduced mod 2^64;
fallible Python code (raised exceptions) returns `Except`.

The file is laid out as definitions first, then theorems.
-/

namespace Confit

/-! ## Definitions: Python values and the canonical argument map -/

/-- Python values, as far as the construction arguments of confit objects
need them.  `vtuple` and `vlist` are distinct (Python `(1,2) == [1,2]` is
`False`) but serialize identically under `json.dumps`.  `vdict` is an
association list held in iteration order. -/
inductive PyVal where
  | vstr : String → PyVal
  | vint : Int → PyVal
  | vlist : List PyVal → PyVal
  | vtuple : List PyVal → PyVal
  | vdict : List (String × PyVal) → PyVal

-- Python `==` on the values above: structural (tuple never equals list;
-- dicts here are compared in iteration order, which is canonical for the
-- dicts confit constructs).
mutual
def pyValBeq : PyVal → PyVal → Bool
  | .vstr a, .vstr b => a == b
  | .vint a, .vint b => a == b
  | .vlist a, .vlist b => pyValListBeq a b
  | .vtuple a, .vtuple b => pyValListBeq a b
  | .vdict a, .vdict b => pyValKVBeq a b
  | _, _ => false

def pyValListBeq : List PyVal → List PyVal → Bool
  | [], [] => true
  | a :: as, b :: bs => pyValBeq a b && pyValListBeq as bs
  | _, _ => false

def pyValKVBeq : List (String × PyVal) → List (String × PyVal) → Bool
  | [], [] => true
  | (k1, v1) :: as, (k2, v2) :: bs => k1 == k2 && pyValBeq v1 v2 && pyValKVBeq as bs
  | _, _ => false
end

/-- The canonical argument map of an instance: Python's `CallSpec`, an
`OrderedDict` from parameter name to bound value, kept in insertion
order. -/
abbrev CallSpec := List (String × PyVal)

/-- Membership test (`k in m`) for the ordered dict. -/
def csContains (m : CallSpec) (k : String) : Bool := m.any (fun p => p.1 == k)

/-- Lookup (`m[k]`) for the ordered dict (first binding; the dict is
duplicate-free by construction). -/
def csGet (m : CallSpec) (k : String) : Option PyVal :=
  (m.find? (fun p => p.1 == k)).map (·.2)

/-- Key-set inclusion, `set(a.keys()) <= set(b.keys())`. -/
def csKeysSubset (a b : CallSpec) : Bool := a.all (fun p => csContains b p.1)

/-- Option-level Python `==` on looked-up values. -/
def optValBeq : Option PyVal → Option PyVal → Bool
  | some x, some y => pyValBeq x y
  | none, none => true
  | _, _ => false

/-- Specificity order `CallSpec.__le__`: self is not more specific than
other — self's key set is a subset of other's and every key of self maps
to an equal value. -/
def csLeB (a b : CallSpec) : Bool :=
  csKeysSubset a b && a.all (fun p => optValBeq (csGet a p.1) (csGet b p.1))

/-- Strict specificity `CallSpec.__lt__`:
`set(self.keys()) < set(other.keys()) and self <= other`. -/
def csLtB (a b : CallSpec) : Bool :=
  (csKeysSubset a b && !csKeysSubset b a) && csLeB a b

/-- Equality `CallSpec.__eq__`: `self <= other and not self < other`. -/
def csEqB (a b : CallSpec) : Bool := csLeB a b && !csLtB a b

/-- The specificity relation as the spec words it: A's key set is a subset
of B's key set, and every key shared between A and B maps to equal values
in both. -/
def SpecNotMoreSpecific (a b : CallSpec) : Prop :=
  (∀ k, csContains a k = true → csContains b k = true) ∧
  (∀ k, csContains a k = true → csContains b k = true → csGet a k = csGet b k)

/-! ## Definitions: deterministic comparisons -/

/-- Bundle of strict-total-order laws for a boolean comparison, used for
Python's deterministic comparisons (byte strings, tuples). -/
structure StrictCmp {α : Type} (lt : α → α → Bool) : Prop where
  irrefl : ∀ a, lt a a = false
  trans : ∀ {a b c}, lt a b = true → lt b c = true → lt a c = true
  tri : ∀ a b, lt a b = true ∨ a = b ∨ lt b a = true

/-- Lexicographic comparison of sequences, deciding at the first position
where neither side is below the other, as Python compares tuples and
strings. -/
def lexLt {α : Type} (lt : α → α → Bool) : List α → List α → Bool
  | [], [] => false
  | [], _ :: _ => true
  | _ :: _, [] => false
  | a :: as, b :: bs => lt a b || (!lt a b && !lt b a && lexLt lt as bs)

/-- Byte-wise character comparison (Python 2 compares `str` bytes; all
strings involved here are ASCII). -/
def charLtB (a b : Char) : Bool := decide (a < b)

/-- Python 2 `str` comparison (lexicographic on bytes). -/
def strLtB (a b : String) : Bool := lexLt charLtB a.data b.data

/-! ## Definitions: Python 2 hashing, modelled mod 2^64 -/

/-- Modulus of a 64-bit machine word. -/
def M64 : Nat := 18446744073709551616

/-- Reduction of a `Nat` to the 64-bit two's-complement bit pattern. -/
def mask64 (n : Nat) : Nat := n % M64

/-- CPython's "hash is never -1" fixup: a result of -1 becomes -2. -/
def fixNeg1 (h : Nat) : Nat := if h = M64 - 1 then M64 - 2 else h

/-- Python 2 `str` hash on a 64-bit build: `x = s[0] << 7`, then
`x = (1000003*x) ^ c` over every byte, then `x ^= len(s)`. -/
def pyStrHashRaw : List Char → Nat
  | [] => 0
  | c :: cs =>
      let x0 := mask64 (c.toNat <<< 7)
      let x := (c :: cs).foldl (fun x ch => mask64 ((1000003 * x) ^^^ ch.toNat)) x0
      mask64 (x ^^^ (c :: cs).length)

/-- Python 2 hash of a (ASCII byte) string. -/
def pyStrHash (s : String) : Nat := fixNeg1 (pyStrHashRaw s.data)

/-- One step of CPython 2's tuple hash: state `x`, current multiplier,
remaining element hashes. -/
def pyTupleHashAux : Nat → Nat → List Nat → Nat
  | x, _, [] => x
  | x, mult, y :: ys =>
      pyTupleHashAux (mask64 ((x ^^^ y) * mult))
        (mask64 (mult + 82520 + 2 * ys.length)) ys

/-- Python 2 tuple hash over the element hashes. -/
def pyTupleHash (hs : List Nat) : Nat :=
  fixNeg1 (mask64 (pyTupleHashAux 0x345678 1000003 hs + 97531))

/-- Python 2 frozenset hash over the (already deduplicated) element
hashes; the per-element terms are XORed, so element order is
irrelevant. -/
def pyFrozensetHash (hs : List Nat) : Nat :=
  let h0 := mask64 (1927868237 * (hs.length + 1))
  let h1 := hs.foldl
    (fun h eh => h ^^^ mask64 ((eh ^^^ mask64 (eh <<< 16) ^^^ 89869747) * 3644798167)) h0
  fixNeg1 (mask64 (h1 * 69069 + 907133923))

/-- Python `abs` of the signed 64-bit value whose bit pattern is `h`. -/
def absHash (h : Nat) : Nat := if h ≥ M64 / 2 then M64 - h else h

/-- Formatting `'%016x' % n`: lowercase hex, zero-padded to 16 digits. -/
def hex16 (n : Nat) : String :=
  ⟨List.replicate (16 - (Nat.toDigits 16 n).length) '0' ++ Nat.toDigits 16 n⟩

/-! ## Definitions: `json.dumps(..., sort_keys=True)` -/

/-- Formatting `'%04x'`-style lowercase hex for `\uXXXX` escapes. -/
def hex4 (n : Nat) : List Char :=
  List.replicate (4 - (Nat.toDigits 16 n).length) '0' ++ Nat.toDigits 16 n

/-- Escaping of one character in a JSON string literal (Python 2
`ensure_ascii=True`). -/
def jsonEscapeChar (c : Char) : List Char :=
  if c = '"' then ['\\', '"']
  else if c = '\\' then ['\\', '\\']
  else if c = '\n' then ['\\', 'n']
  else if c = '\r' then ['\\', 'r']
  else if c = '\t' then ['\\', 't']
  else if c.toNat = 8 then ['\\', 'b']
  else if c.toNat = 12 then ['\\', 'f']
  else if c.toNat < 32 || c.toNat ≥ 127 then '\\' :: 'u' :: hex4 c.toNat
  else [c]

/-- JSON rendering of a string. -/
def jsonStr (s : String) : String :=
  ⟨'"' :: (s.data.map jsonEscapeChar).flatten ++ ['"']⟩

/-- Joining a list of strings with a separator (`sep.join(...)`). -/
def joinSep (sep : String) : List String → String
  | [] => ""
  | [x] => x
  | x :: y :: rest => x ++ sep ++ joinSep sep (y :: rest)

/-- Sorting relation by first component, under Python 2's byte-wise
string order (`le` as the negation of strict `gt`). -/
def pairKeyLe (p q : String × String) : Prop := strLtB q.1 p.1 = false

instance : DecidableRel pairKeyLe := fun p q => instDecidableEqBool _ _

/-- Sorting of already-rendered key/value pairs by key, as
`json.dumps(..., sort_keys=True)` orders the items of a dict. -/
def sortPairs (l : List (String × String)) : List (String × String) :=
  List.insertionSort pairKeyLe l

/-- Rendering of a JSON object body from rendered key/value pairs:
key-sorted, `", "`-separated, with `": "` after each key. -/
def jsonDumpObj (pairs : List (String × String)) : String :=
  joinSep ", " ((sortPairs pairs).map (fun p => jsonStr p.1 ++ ": " ++ p.2))

mutual
def jsonDump : PyVal → String
  | .vstr s => jsonStr s
  | .vint i => toString i
  | .vlist l => "[" ++ jsonDumpList l ++ "]"
  | .vtuple l => "[" ++ jsonDumpList l ++ "]"
  | .vdict kvs => "\x7b" ++ jsonDumpObj (jsonDumpKVs kvs) ++ "\x7d"

def jsonDumpList : List PyVal → String
  | [] => ""
  | [v] => jsonDump v
  | v :: w :: rest => jsonDump v ++ ", " ++ jsonDumpList (w :: rest)

def jsonDumpKVs : List (String × PyVal) → List (String × String)
  | [] => []
  | (k, v) :: rest => (k, jsonDump v) :: jsonDumpKVs rest
end

/-- Serialization a `CallSpec` hashes through:
`json.dumps(self, sort_keys=True)`. -/
def csDump (m : CallSpec) : String := "\x7b" ++ jsonDumpObj (jsonDumpKVs m) ++ "\x7d"

/-- Identity hash of a `CallSpec` (`CallSpec.__hash__`). -/
def csHash (m : CallSpec) : Nat := pyStrHash (csDump m)

/-! ## Definitions: labels and the identity key -/

/-- Values that occur in `_callspec_labels`: a type-name string or a bare
`CallSpec` (the two entries of `set(self._callspec)` that `Wrapper.__call__`
adds to each member), or a whole `(typename, CallSpec)` pair (added to the
wrapper itself). -/
inductive Label where
  | lstr : String → Label
  | lspec : CallSpec → Label
  | lpair : String → CallSpec → Label

/-- Python `==` between labels (`CallSpec` compares via its overridden
`__eq__`; values of different types compare unequal). -/
def labelBeq : Label → Label → Bool
  | .lstr a, .lstr b => a == b
  | .lspec a, .lspec b => csEqB a b
  | .lpair ta a, .lpair tb b => ta == tb && csEqB a b
  | _, _ => false

/-- Python 2 hash of a label. -/
def labelHash : Label → Nat
  | .lstr s => pyStrHash s
  | .lspec c => csHash c
  | .lpair tn c => pyTupleHash [pyStrHash tn, csHash c]

/-- Membership of a label in a label set. -/
def labelMem (L : List Label) (l : Label) : Bool := L.any (fun x => labelBeq x l)

/-- Set insertion (`|=` of a single element). -/
def labelInsert (L : List Label) (l : Label) : List Label :=
  if labelMem L l then L else L ++ [l]

/-- Set union (`|=`), keeping existing elements and appending new ones. -/
def labelUnion (L M : List Label) : List Label := M.foldl labelInsert L

/-- First-occurrence deduplication, as `frozenset(...)` collapses equal
elements. -/
def labelDedup : List Label → List Label
  | [] => []
  | x :: xs => x :: (labelDedup xs).filter (fun y => !(labelBeq x y))

/-- Python `frozenset.__eq__`: mutual inclusion. -/
def labelSetEq (A B : List Label) : Bool :=
  A.all (fun l => labelMem B l) && B.all (fun l => labelMem A l)

/-- Python 2 hash of `frozenset(labels)`. -/
def fsetHashL (L : List Label) : Nat :=
  pyFrozensetHash ((labelDedup L).map labelHash)

/-! ## Definitions: the object graph -/

/-- Renderable body items: literal Bash text (a Python `str`), a
`Bash.Raw` pass-through, an argument vector to be escaped, or Python
`None` (the empty slot `Task.body` leaves when there are no
dependencies). -/
inductive Item where
  | text : String → Item
  | raw : String → Item
  | argv : List String → Item
  | nil : Item
  deriving DecidableEq

/-- Runtime shape of what `code()` returned: a bare item, a Python list,
a Python tuple, or something that is neither a string/Raw nor a
sequence. -/
inductive CodeVal where
  | single : Item → CodeVal
  | list : List Item → CodeVal
  | tuple : List Item → CodeVal
  | other : CodeVal
  deriving DecidableEq

/-- Generation-time exceptions raised by the modelled code.  The spec
names `ValueError` from `CallSpec.__init__` "SignatureError" and the
`TypeError` of a bad `code()` shape "ConfigurationError". -/
inductive Err where
  | typeError : Err
  | valueError : Err
  | attributeError : Err
  deriving DecidableEq

/-- A confit object: its class' qualified name, the `CallSpec` computed
at construction, the accumulated `_callspec_labels`, whether its class
derives from `Task` and/or `Wrapper`, its direct dependencies (`deps()`),
the value its `code()` returns, its bound invocation arguments (`args`,
when present), and the wrapped members (`others`).  Graphs are modelled
as finite trees, which is exactly the finite-acyclic case the spec's
guarantees are stated for. -/
inductive Obj where
  | mk (tn : String) (spec : CallSpec) (labels : List Label)
       (isTask : Bool) (isWrapper : Bool)
       (deps : List Obj) (codeRet : CodeVal) (callArgs : Option (List String))
       (others : List Obj) : Obj

def Obj.tn : Obj → String | .mk v _ _ _ _ _ _ _ _ => v

def Obj.spec : Obj → CallSpec | .mk _ v _ _ _ _ _ _ _ => v

def Obj.labels : Obj → List Label | .mk _ _ v _ _ _ _ _ _ => v

def Obj.isTask : Obj → Bool | .mk _ _ _ v _ _ _ _ _ => v

def Obj.isWrapper : Obj → Bool | .mk _ _ _ _ v _ _ _ _ => v

def Obj.deps : Obj → List Obj | .mk _ _ _ _ _ v _ _ _ => v

def Obj.codeRet : Obj → CodeVal | .mk _ _ _ _ _ _ v _ _ => v

def Obj.callArgs : Obj → Option (List String) | .mk _ _ _ _ _ _ _ v _ => v

def Obj.others : Obj → List Obj | .mk _ _ _ _ _ _ _ _ v => v

def Obj.withLabels : Obj → List Label → Obj
  | .mk tn sp _ t w d c a o, L => .mk tn sp L t w d c a o

def Obj.withOthers : Obj → List Obj → Obj
  | .mk tn sp L t w d c a _, os => .mk tn sp L t w d c a os

/-- Identity key (`Specced.key`) of an object, as the data its equality
and hash consume: the `(typename, CallSpec)` pair plus the frozen label
set. -/
def speccedHash (o : Obj) : Nat :=
  pyTupleHash [pyTupleHash [pyStrHash o.tn, csHash o.spec], fsetHashL o.labels]

/-- Python `==` between two `Specced` objects: equal keys. -/
def keyBeq (a b : Obj) : Bool :=
  a.tn == b.tn && csEqB a.spec b.spec && labelSetEq a.labels b.labels

/-- Generated function name (`Named.name`):
`typename + '//' + '%016x' % abs(hash(self))`. -/
def nameOf (o : Obj) : String := o.tn ++ "//" ++ hex16 (absHash (speccedHash o))

/-- Sentinel variable of the idempotency guard (`ButOnce.checks`):
`'_%016x' % abs(hash(self))`. -/
def sentinelOf (o : Obj) : String := "_" ++ hex16 (absHash (speccedHash o))

/-! ## Definitions: name decomposition and deterministic ordering -/

/-- Splitting a character list on one separator character, Python
`str.split(c)`. -/
def splitChar (c : Char) : List Char → List (List Char)
  | [] => [[]]
  | x :: xs =>
      match splitChar c xs with
      | r :: rs => if x = c then [] :: r :: rs else (x :: r) :: rs
      | [] => [[x]]

/-- Joining character-list lines with a separator character. -/
def joinChar (c : Char) : List (List Char) → List Char
  | [] => []
  | [l] => l
  | l :: m :: rest => l ++ c :: joinChar c (m :: rest)

/-- Test for an occurrence of `"//"`. -/
def hasDSlash : List Char → Bool
  | '/' :: '/' :: _ => true
  | _ :: rest => hasDSlash rest
  | [] => false

/-- Splitting on the two-character separator `"//"`, Python
`str.split('//')` (greedy, left to right). -/
def splitDSlash : List Char → List (List Char)
  | '/' :: '/' :: rest => [] :: splitDSlash rest
  | c :: rest =>
      match splitDSlash rest with
      | r :: rs => (c :: r) :: rs
      | [] => [[c]]
  | [] => [[]]

/-- One component of `Named.components`: a plain segment, or a segment
split at `"//"` into a tuple. -/
inductive Comp where
  | cstr : String → Comp
  | ctup : List String → Comp

/-- Hierarchical decomposition of a name (`Named.components`): split on
`'.'`, then split each segment containing `"//"` on it. -/
def componentsOf (name : String) : List Comp :=
  (splitChar '.' name.data).map (fun seg =>
    if hasDSlash seg then .ctup ((splitDSlash seg).map (fun cs => (⟨cs⟩ : String)))
    else .cstr ⟨seg⟩)

/-- Python 2 comparison of components: two strings byte-wise, two tuples
lexicographically, and a string below a tuple (Python 2 orders values of
different types by type name, and `'str' < 'tuple'`). -/
def compLt : Comp → Comp → Bool
  | .cstr a, .cstr b => strLtB a b
  | .cstr _, .ctup _ => true
  | .ctup _, .cstr _ => false
  | .ctup a, .ctup b => lexLt strLtB a b

/-- Sort key of a chunk: `Named.components` of its name. -/
def sortKeyOf (o : Obj) : List Comp := componentsOf (nameOf o)

/-- Ordering used by `sorted(tasks, key=Named.components)`. -/
def sortRel (a b : Obj) : Prop := lexLt compLt (sortKeyOf b) (sortKeyOf a) = false

instance : DecidableRel sortRel := fun a b => instDecidableEqBool _ _

/-! ## Definitions: rendering (`Bash.fmt` and friends) -/

/-- Characters `textwrap` treats as horizontal whitespace. -/
def isSpTab (c : Char) : Bool := c = ' ' || c = '\t'

/-- Python `str.strip()` whitespace. -/
def isPyWs (c : Char) : Bool :=
  c = ' ' || c = '\t' || c = '\n' || c = '\r' || c.toNat = 11 || c.toNat = 12

/-- First step of `textwrap.dedent`: lines consisting solely of blanks
and tabs are normalized to empty lines. -/
def blankWsOnly (l : List Char) : List Char :=
  if !l.isEmpty && l.all isSpTab then [] else l

/-- Check that a line has a non-whitespace character. -/
def hasContentChar (l : List Char) : Bool := l.any (fun c => !isSpTab c)

/-- Margin computation of Python 2.7's `textwrap.dedent`: fold over the
indents of content lines; on the first pair where neither is a prefix of
the other, the margin collapses to the empty string. -/
def marginFold : Option (List Char) → List (List Char) → Option (List Char)
  | m, [] => m
  | m, ind :: rest =>
      match m with
      | none => marginFold (some ind) rest
      | some mg =>
          if mg.isPrefixOf ind then marginFold (some mg) rest
          else if ind.isPrefixOf mg then marginFold (some ind) rest
          else some []

/-- Python 2.7 `textwrap.dedent`. -/
def pyDedent (cs : List Char) : List Char :=
  let ls := (splitChar '\n' cs).map blankWsOnly
  let margin := (marginFold none ((ls.filter hasContentChar).map
    (fun l => l.takeWhile isSpTab))).getD []
  joinChar '\n' (ls.map (fun l =>
    if !margin.isEmpty && margin.isPrefixOf l then l.drop margin.length else l))

/-- Python `str.strip()`. -/
def pyStrip (cs : List Char) : List Char :=
  ((cs.dropWhile isPyWs).reverse.dropWhile isPyWs).reverse

/-- Block normalization `Bash.untq`: drop one leading newline, dedent,
strip. -/
def untq (s : String) : String :=
  match s.data with
  | '\n' :: rest => ⟨pyStrip (pyDedent rest)⟩
  | cs => ⟨pyStrip (pyDedent cs)⟩

/-- Indentation step of `Bash.fmt`: two blanks before every line whose
first character is not a tab (empty lines are untouched). -/
def indentNonTab (cs : List Char) : List Char :=
  joinChar '\n' ((splitChar '\n' cs).map (fun l =>
    match l with
    | [] => []
    | c :: rest => if c = '\t' then c :: rest else ' ' :: ' ' :: c :: rest))

/-- Characters `pipes.quote` leaves unquoted. -/
def pipesSafeChar (c : Char) : Bool :=
  c.isAlpha || c.isDigit ||
    c = '@' || c = '%' || c = '_' || c = '-' || c = '+' || c = '=' ||
    c = ':' || c = ',' || c = '.' || c = '/'

/-- Replacement of every single quote by the quoted-quote idiom inside
`pipes.quote`. -/
def quoteReplace : List Char → List Char
  | [] => []
  | c :: rest =>
      if c = '\x27' then
        '\x27' :: '"' :: '\x27' :: '"' :: '\x27' :: quoteReplace rest
      else c :: quoteReplace rest

/-- Shell escaping, `pipes.quote`. -/
def pipesQuote (s : String) : String :=
  if s.data.isEmpty then "\x27\x27"
  else if s.data.all pipesSafeChar then s
  else ⟨'\x27' :: (quoteReplace s.data ++ ['\x27'])⟩

/-- Truthiness of a body item under `if item` (Python `None`, `''` and
`[]` are falsy; a `Raw` object is always truthy). -/
def Item.truthy : Item → Bool
  | .text s => !s.data.isEmpty
  | .raw _ => true
  | .argv l => !l.isEmpty
  | .nil => false

/-- Formatting of one body item, `Bash.fmt`. -/
def fmtItem : Item → String
  | .raw s => s
  | .text s => ⟨indentNonTab (untq s).data⟩
  | .argv args => "  " ++ joinSep " " (args.map pipesQuote)
  | .nil => ""

/-! ## Definitions: chunk bodies, declarations and the assembler -/

/-- Name of the wrapper's trampoline, `Wrapper.inner`. -/
def innerName (o : Obj) : String := nameOf o ++ "//inner"

/-- Name of the dependency trampoline, `Task.pre`. -/
def preName (o : Obj) : String := nameOf o ++ "//pre"

/-- The guard text `ButOnce.checks` produces (before `Bash.fmt`
normalizes it). -/
def checkStr (o : Obj) : String :=
  "\n            [[ $\x7b" ++ sentinelOf o ++ "+_\x7d ]] && return || " ++
    sentinelOf o ++ "=_ # only once\n        "

/-- The call expression `Bash.call`: the name, followed by the escaped
bound arguments when the object carries an `args` attribute. -/
def callOf (o : Obj) : String :=
  match o.callArgs with
  | none => nameOf o
  | some args => joinSep " " (nameOf o :: args.map pipesQuote)

/-- Normalization of `code()`'s return value inside `Task.body`: a bare
string or `Raw` is wrapped into a one-element list, a list passes
through, and anything else makes the `checks + [...] + code` list
concatenation raise `TypeError` (including a tuple: Python cannot
concatenate `list` and `tuple`). -/
def taskCode (o : Obj) : Except Err (List Item) :=
  match o.codeRet with
  | .single i => .ok [i]
  | .list l => .ok l
  | .tuple _ => .error .typeError
  | .other => .error .typeError

/-- Body of a plain `Bash` chunk: the `code` stored by the constructor
(which wrapped a bare string or `Raw`); iterating a non-sequence in
`Bash.decls` raises `TypeError`. -/
def plainBody (o : Obj) : Except Err (List Item) :=
  match o.codeRet with
  | .single i => .ok [i]
  | .list l => .ok l
  | .tuple l => .ok l
  | .other => .error .typeError

/-- The body item list of an object: for a Task (`Task.body`), guard
first, then the `pre` trampoline slot (`None` when there are no
dependencies), then the task's own code; for a pure Wrapper
(`Wrapper.body`), just the inner trampoline name; otherwise `Bash.body`. -/
def bodyOf (o : Obj) : Except Err (List Item) :=
  if o.isTask then
    (taskCode o).map (fun code =>
      Item.text (checkStr o) ::
        (if o.deps.isEmpty then Item.nil else Item.text (preName o)) :: code)
  else if o.isWrapper then .ok [Item.text (innerName o)]
  else plainBody o

/-- Rendering of one function declaration from its body items
(`Bash.decls`): falsy items are dropped, the rest are formatted and
joined by newlines. -/
def renderDecl (nm : String) (items : List Item) : String :=
  "function " ++ nm ++ " \x7b\n" ++
    joinSep "\n" ((items.filter Item.truthy).map fmtItem) ++ "\n\x7d"

/-- The wrapper's inner trampoline declaration (`Wrapper.decls`). -/
def innerDecl (o : Obj) : String :=
  joinSep "\n" ((("function " ++ innerName o ++ " \x7b") ::
    o.others.map (fun t => "  " ++ callOf t)) ++ ["\x7d"])

/-- The dependency trampoline declaration (`Task.decls`). -/
def preDecl (o : Obj) : String :=
  joinSep "\n" ((("function " ++ preName o ++ " \x7b") ::
    o.deps.map (fun t => "  " ++ callOf t)) ++ ["\x7d"])

/-- All declarations a chunk contributes: the base declaration, the
inner trampoline for wrappers, and the `pre` trampoline for tasks with
dependencies (method-resolution order `Task.decls` after
`Wrapper.decls`). -/
def declsOf (o : Obj) : Except Err (List String) :=
  (bodyOf o).map (fun items =>
    [renderDecl (nameOf o) items] ++
      (if o.isWrapper then [innerDecl o] else []) ++
      (if o.isTask && !o.deps.isEmpty then [preDecl o] else []))

/-- Direct edges of the traversal in `Task.subs`: wrapped members first
(for wrappers), then direct dependencies (for tasks). -/
def Obj.children (o : Obj) : List Obj :=
  (if o.isWrapper then o.others else []) ++ (if o.isTask then o.deps else [])

-- The recursive traversal `all_defs` inside `Task.subs` and
-- `Task.script`: children, then every child's own traversal
-- (`itertools.chain(subs, *[all_defs(t) for t in subs])`), written as a
-- structural mutual recursion; `allDefs_flatten` below restates it in the
-- chained form of the source.
mutual
def allDefs : Obj → List Obj
  | .mk _ _ _ ist isw d _ _ os =>
      ((if isw then os else []) ++ (if ist then d else [])) ++
        ((if isw then allDefsList os else []) ++ (if ist then allDefsList d else []))

def allDefsList : List Obj → List Obj
  | [] => []
  | o :: rest => allDefs o ++ allDefsList rest
end

/-- First-occurrence deduplication by Python `==`, as `set(...)` of
`Specced` objects collapses key-equal instances. -/
def objDedup : List Obj → List Obj
  | [] => []
  | x :: xs => x :: (objDedup xs).filter (fun y => !(keyBeq x y))

/-- `Task.subs`: the deduplicated transitive closure, not counting the
instance itself. -/
def subsOf (o : Obj) : List Obj := objDedup (allDefs o)

/-- The chunk set a script renders: `set([self]) | self.subs`. -/
def scriptTasks (o : Obj) : List Obj := objDedup (o :: allDefs o)

/-- The deterministic rendering order,
`sorted(tasks, key=Named.components)`. -/
def sortedTasks (o : Obj) : List Obj := List.insertionSort sortRel (scriptTasks o)

/-- The fixed prologue of `Task.script` (after `textwrap.dedent`):
interpreter line, strict-mode options, locale export. -/
def headerText (locale : String) : String :=
  "#!/bin/bash\nset -o errexit -o nounset -o pipefail\n\nexport LC_ALL=" ++
    locale ++ "\n\n"

/-- The assembled script, `Task.script`: header, declaration groups
joined by blank lines, the optional trace toggle, and the entry call. -/
def scriptOf (o : Obj) (verbose debug : Bool) (locale : String) : Except Err String := do
  let groups ← (sortedTasks o).mapM declsOf
  pure (headerText locale ++ joinSep "\n\n" (groups.map (joinSep "\n")) ++
    "\n\n\n" ++ (if debug then "set -o xtrace" else "") ++ "\n" ++ callOf o ++ "\n")

/-! ## Definitions: wrapper composition (`Wrapper.__call__`) -/

/-- One element of a collection passed to a wrapper: a `Bash` object or
something whose `_callspec` access will fail. -/
inductive MemberItem where
  | good : Obj → MemberItem
  | bad : MemberItem

/-- One argument of `Wrapper.__call__(*others)`: a `Bash` object, an
iterable collection, or a non-iterable value (for which `list(other)`
raises `TypeError`). -/
inductive MemberArg where
  | obj : Obj → MemberArg
  | coll : List MemberItem → MemberArg
  | notIter : MemberArg

/-- The flattening loop of `Wrapper.__call__` building `chained`. -/
def flattenMembers : List MemberArg → Except Err (List MemberItem)
  | [] => .ok []
  | .obj o :: rest => (flattenMembers rest).map (fun ms => .good o :: ms)
  | .coll items :: rest => (flattenMembers rest).map (fun ms => items ++ ms)
  | .notIter :: _ => .error .typeError

/-- The two elements of `set(self._callspec)` a wrapper pushes into each
member: its type name and its bare `CallSpec`. -/
def wrapEntries (w : Obj) : List Label := [.lstr w.tn, .lspec w.spec]

/-- The label-propagation loop of `Wrapper.__call__`: per member, the
wrapper absorbs the member's `_callspec` pair and its current labels, and
the member absorbs `set(self._callspec)`. -/
def propagate (w : Obj) : List Label → List MemberItem → Except Err (List Label × List Obj)
  | wl, [] => .ok (wl, [])
  | _, .bad :: _ => .error .attributeError
  | wl, .good m :: rest =>
      let wl2 := labelUnion (labelUnion wl [.lpair m.tn m.spec]) m.labels
      let m' := m.withLabels (labelUnion m.labels (wrapEntries w))
      (propagate w wl2 rest).map (fun r => (r.1, m' :: r.2))

/-- Composition `Wrapper.__call__`: flatten the arguments, propagate
labels bidirectionally once, and store the members as `others`. -/
def wrapperCall (w : Obj) (args : List MemberArg) : Except Err Obj := do
  let chained ← flattenMembers args
  let r ← propagate w w.labels chained
  pure ((w.withLabels r.1).withOthers r.2)

/-! ## Definitions: `CallSpec.__init__` (identity computation) -/

/-- Declared signature of a type's `__init__`, as `inspect.getargspec`
reports it: parameter names (without `self`), and the names of the
variadic-positional and variadic-keyword parameters when declared. -/
structure Sig where
  names : List String
  varargsName : Option String
  keywordsName : Option String

/-- Keyword-argument lookup. -/
def kwGet (kw : List (String × PyVal)) (n : String) : Option PyVal :=
  (kw.find? (fun p => p.1 == n)).map (·.2)

/-- Insertion into an `OrderedDict`: an existing key keeps its position
and takes the new value, a new key is appended. -/
def odInsert (m : CallSpec) (k : String) (v : PyVal) : CallSpec :=
  if m.any (fun p => p.1 == k) then
    m.map (fun p => if p.1 == k then (k, v) else p)
  else m ++ [(k, v)]

/-- `OrderedDict(named)` construction from a pair list. -/
def odFromList (l : List (String × PyVal)) : CallSpec :=
  l.foldl (fun m p => odInsert m p.1 p.2) []

/-- `CallSpec.__init__`: bind positional arguments to declared names in
order, overlay keyword arguments on declared names, then either bundle
leftovers under the variadic names or raise `ValueError` (the spec's
SignatureError). -/
def callSpecInit (sig : Sig) (varargs : List PyVal)
    (keywords : List (String × PyVal)) : Except Err CallSpec :=
  let named0 := List.zip sig.names varargs
  let rest := varargs.drop named0.length
  let named1 := named0 ++ sig.names.filterMap
    (fun n => (kwGet keywords n).map (fun v => (n, v)))
  let leftover := keywords.filter (fun p => !(sig.names.contains p.1))
  if !rest.isEmpty && sig.varargsName.isNone then .error .valueError
  else
    let named2 := named1 ++ (match sig.varargsName with
      | some vn => if !rest.isEmpty then [(vn, PyVal.vtuple rest)] else []
      | none => [])
    if !leftover.isEmpty && sig.keywordsName.isNone then .error .valueError
    else
      let named3 := named2 ++ (match sig.keywordsName with
        | some kn => if !leftover.isEmpty then [(kn, PyVal.vdict leftover)] else []
        | none => [])
      .ok (odFromList named3)

/-- Test whether a modelled computation raised. -/
def isErr {α : Type} : Except Err α → Bool
  | .ok _ => false
  | .error _ => true

/-! ## Definitions: well-formedness (ordered dicts are duplicate-free) -/

/-- Well-formedness of a `CallSpec`: distinct keys, as any Python
`OrderedDict` guarantees. -/
def SpecWF (m : CallSpec) : Prop := (m.map Prod.fst).Nodup

instance : DecidablePred SpecWF := fun m =>
  inferInstanceAs (Decidable ((m.map Prod.fst).Nodup))

/-- Well-formedness of a label: any `CallSpec` it carries has distinct
keys. -/
def LabelWF : Label → Prop
  | .lstr _ => True
  | .lspec c => SpecWF c
  | .lpair _ c => SpecWF c

instance : DecidablePred LabelWF := fun l =>
  match l with
  | .lstr _ => isTrue trivial
  | .lspec c => inferInstanceAs (Decidable (SpecWF c))
  | .lpair _ c => inferInstanceAs (Decidable (SpecWF c))

/-- Well-formedness of an object's identity key: its `CallSpec` and every
label's `CallSpec` have distinct keys. -/
def KeyWF (o : Obj) : Prop := SpecWF o.spec ∧ ∀ l ∈ o.labels, LabelWF l

instance : ∀ o : Obj, Decidable (KeyWF o) := fun o =>
  inferInstanceAs (Decidable (SpecWF o.spec ∧ ∀ l ∈ o.labels, LabelWF l))

/-! ## Definitions: reachability and script lines -/

/-- Reachability along the edges the `all_defs` traversal follows: the
direct children (wrapped members of a wrapper, dependencies of a task),
transitively. -/
inductive Reaches : Obj → Obj → Prop where
  | child {o c : Obj} : c ∈ o.children → Reaches o c
  | step {o c d : Obj} : c ∈ o.children → Reaches c d → Reaches o d

/-- The lines of a rendered script: its text split on newlines. -/
def scriptLines (s : String) : List String :=
  (splitChar '\n' s.data).map (fun l => (⟨l⟩ : String))

/-! ## Definitions: concrete instances exercising the claims -/

/-- A task constructed as `T(x=(1, 2))` — a tuple argument. -/
def exTupleArg : Obj :=
  .mk "T" [("x", .vtuple [.vint 1, .vint 2])] [] true false [] (.list []) none []

/-- A task constructed as `T(x=[1, 2])` — a list argument. -/
def exListArg : Obj :=
  .mk "T" [("x", .vlist [.vint 1, .vint 2])] [] true false [] (.list []) none []

/-- A task whose spec binds `x` then `y`. -/
def exA : Obj :=
  .mk "T" [("x", .vint 1), ("y", .vint 2)] [] true false [] (.list []) none []

/-- A semantically identical instance whose spec lists the same bindings
in the other insertion order. -/
def exB : Obj :=
  .mk "T" [("y", .vint 2), ("x", .vint 1)] [] true false [] (.list []) none []

/-- An entry task depending on both `exA` and `exB`. -/
def exE : Obj :=
  .mk "E" [] [] true false [exA, exB] (.list [.text ": # entry"]) none []

/-- A task whose `code()` returns a tuple of otherwise valid items. -/
def exTupleCode : Obj :=
  .mk "T" [] [] true false [] (.tuple [.text ": # ok"]) none []

/-- A dependency-free task whose `code()` returns one bare string. -/
def exSingleCode : Obj :=
  .mk "S" [] [] true false [] (.single (.text "touch /tmp/s")) none []

/-- A wrapper, before composition. -/
def exW : Obj :=
  .mk "W" [("env", .vstr "prod")] [] false true [] (.list []) none []

/-- A member task to be wrapped. -/
def exM : Obj :=
  .mk "M" [("n", .vint 1)] [] true false [] (.list [.text ": # m"]) none []

/-- The shared leaf of a diamond dependency graph. -/
def exD : Obj := .mk "D" [] [] true false [] (.list [.text ": # d"]) none []

/-- Left branch of the diamond, depending on `exD`. -/
def exL : Obj := .mk "L" [] [] true false [exD] (.list [.text ": # l"]) none []

/-- Right branch of the diamond, also depending on `exD`. -/
def exR : Obj := .mk "R" [] [] true false [exD] (.list [.text ": # r"]) none []

/-- Diamond root, depending on both branches. -/
def exRoot : Obj :=
  .mk "A" [] [] true false [exL, exR] (.list [.text ": # a"]) none []

/-! ## Theorems: Python value equality and the specificity order -/

mutual
theorem pyValBeq_iff : ∀ a b : PyVal, pyValBeq a b = true ↔ a = b
  | .vstr a, .vstr b => by simp [pyValBeq]
  | .vstr _, .vint _ => by simp [pyValBeq]
  | .vstr _, .vlist _ => by simp [pyValBeq]
  | .vstr _, .vtuple _ => by simp [pyValBeq]
  | .vstr _, .vdict _ => by simp [pyValBeq]
  | .vint _, .vstr _ => by simp [pyValBeq]
  | .vint a, .vint b => by simp [pyValBeq]
  | .vint _, .vlist _ => by simp [pyValBeq]
  | .vint _, .vtuple _ => by simp [pyValBeq]
  | .vint _, .vdict _ => by simp [pyValBeq]
  | .vlist _, .vstr _ => by simp [pyValBeq]
  | .vlist _, .vint _ => by simp [pyValBeq]
  | .vlist a, .vlist b => by simp [pyValBeq, pyValListBeq_iff a b]
  | .vlist _, .vtuple _ => by simp [pyValBeq]
  | .vlist _, .vdict _ => by simp [pyValBeq]
  | .vtuple _, .vstr _ => by simp [pyValBeq]
  | .vtuple _, .vint _ => by simp [pyValBeq]
  | .vtuple _, .vlist _ => by simp [pyValBeq]
  | .vtuple a, .vtuple b => by simp [pyValBeq, pyValListBeq_iff a b]
  | .vtuple _, .vdict _ => by simp [pyValBeq]
  | .vdict _, .vstr _ => by simp [pyValBeq]
  | .vdict _, .vint _ => by simp [pyValBeq]
  | .vdict _, .vlist _ => by simp [pyValBeq]
  | .vdict _, .vtuple _ => by simp [pyValBeq]
  | .vdict a, .vdict b => by simp [pyValBeq, pyValKVBeq_iff a b]

theorem pyValListBeq_iff : ∀ as bs : List PyVal, pyValListBeq as bs = true ↔ as = bs
  | [], [] => by simp [pyValListBeq]
  | [], _ :: _ => by simp [pyValListBeq]
  | _ :: _, [] => by simp [pyValListBeq]
  | a :: as, b :: bs => by
      simp [pyValListBeq, pyValBeq_iff a b, pyValListBeq_iff as bs]

theorem pyValKVBeq_iff : ∀ as bs : List (String × PyVal), pyValKVBeq as bs = true ↔ as = bs
  | [], [] => by simp [pyValKVBeq]
  | [], _ :: _ => by simp [pyValKVBeq]
  | _ :: _, [] => by simp [pyValKVBeq]
  | (k1, v1) :: as, (k2, v2) :: bs => by
      simp [pyValKVBeq, pyValBeq_iff v1 v2, pyValKVBeq_iff as bs, Prod.ext_iff, and_assoc]
end

theorem csContains_iff {m : CallSpec} {k : String} :
    csContains m k = true ↔ ∃ p ∈ m, p.1 = k := by
  simp [csContains]

theorem csGet_isSome_of_contains {m : CallSpec} {k : String}
    (h : csContains m k = true) : (csGet m k).isSome := by
  rcases csContains_iff.mp h with ⟨p, hp, hk⟩
  have hfind : (m.find? (fun p => p.1 == k)).isSome = true :=
    List.find?_isSome.mpr ⟨p, hp, by simp [hk]⟩
  rcases ho : m.find? (fun p => p.1 == k) with _ | q
  · rw [ho] at hfind
    simp at hfind
  · simp [csGet, ho]

theorem csContains_of_get {m : CallSpec} {k : String} {v : PyVal}
    (h : csGet m k = some v) : csContains m k = true := by
  simp only [csGet, Option.map_eq_some'] at h
  rcases h with ⟨p, hp, _⟩
  have hmem := List.mem_of_find?_eq_some hp
  have hk := List.find?_some hp
  simp at hk
  exact csContains_iff.mpr ⟨p, hmem, hk⟩

theorem csKeysSubset_iff {a b : CallSpec} :
    csKeysSubset a b = true ↔ ∀ k, csContains a k = true → csContains b k = true := by
  simp only [csKeysSubset, List.all_eq_true]
  constructor
  · intro h k hk
    rcases csContains_iff.mp hk with ⟨p, hp, hk'⟩
    have := h p hp
    rwa [hk'] at this
  · intro h p hp
    exact h p.1 (csContains_iff.mpr ⟨p, hp, rfl⟩)

theorem optValBeq_some_iff {x y : PyVal} :
    optValBeq (some x) (some y) = true ↔ x = y := by
  simp only [optValBeq]
  exact pyValBeq_iff x y

/-- Function `csLeB` implements exactly the relation the spec describes. -/
theorem csLeB_iff_spec (a b : CallSpec) :
    csLeB a b = true ↔ SpecNotMoreSpecific a b := by
  constructor
  · intro h
    simp only [csLeB, Bool.and_eq_true, List.all_eq_true] at h
    obtain ⟨hsub, hvals⟩ := h
    have hsub' := csKeysSubset_iff.mp hsub
    refine ⟨hsub', fun k hka _ => ?_⟩
    rcases csContains_iff.mp hka with ⟨p, hp, hk'⟩
    have hval := hvals p hp
    rw [hk'] at hval
    rcases hg : csGet a k with _ | v
    · have := csGet_isSome_of_contains hka
      rw [hg] at this
      simp at this
    · rcases hg' : csGet b k with _ | w
      · rw [hg, hg'] at hval
        simp [optValBeq] at hval
      · rw [hg, hg'] at hval
        rw [optValBeq_some_iff.mp hval]
  · intro h
    obtain ⟨hsub, hvals⟩ := h
    simp only [csLeB, Bool.and_eq_true, List.all_eq_true]
    refine ⟨csKeysSubset_iff.mpr hsub, fun p hp => ?_⟩
    have hka : csContains a p.1 = true := csContains_iff.mpr ⟨p, hp, rfl⟩
    have hkb := hsub _ hka
    rw [hvals p.1 hka hkb]
    rcases hg : csGet b p.1 with _ | v
    · have := csGet_isSome_of_contains hkb
      rw [hg] at this
      simp at this
    · exact optValBeq_some_iff.mpr rfl

theorem csLeB_refl (a : CallSpec) : csLeB a a = true := by
  rw [csLeB_iff_spec]
  exact ⟨fun k h => h, fun k _ _ => rfl⟩

theorem csLeB_trans {a b c : CallSpec} (hab : csLeB a b = true)
    (hbc : csLeB b c = true) : csLeB a c = true := by
  rw [csLeB_iff_spec] at *
  obtain ⟨sab, vab⟩ := hab
  obtain ⟨sbc, vbc⟩ := hbc
  refine ⟨fun k h => sbc k (sab k h), fun k hka hkc => ?_⟩
  have hkb := sab k hka
  rw [vab k hka hkb, vbc k hkb hkc]

theorem csLeB_keysSubset {a b : CallSpec} (h : csLeB a b = true) :
    csKeysSubset a b = true := by
  simp only [csLeB, Bool.and_eq_true] at h
  exact h.1

/-- Python `__eq__` holds iff the relation holds in both directions. -/
theorem csEqB_iff_both (a b : CallSpec) :
    csEqB a b = true ↔ (csLeB a b = true ∧ csLeB b a = true) := by
  constructor
  · intro h
    simp only [csEqB, Bool.and_eq_true, Bool.not_eq_true'] at h
    obtain ⟨hle, hlt⟩ := h
    refine ⟨hle, ?_⟩
    have hsub : csKeysSubset a b = true := csLeB_keysSubset hle
    have hrevsub : csKeysSubset b a = true := by
      by_contra hc
      have hc' : csKeysSubset b a = false := by
        cases hrec : csKeysSubset b a
        · rfl
        · exact absurd hrec hc
      rw [csLtB, hsub, hc', hle] at hlt
      simp at hlt
    rw [csLeB_iff_spec]
    rw [csLeB_iff_spec] at hle
    obtain ⟨_, vab⟩ := hle
    refine ⟨csKeysSubset_iff.mp hrevsub, fun k hkb hka => ?_⟩
    exact (vab k hka hkb).symm
  · intro h
    obtain ⟨hab, hba⟩ := h
    have hrevsub : csKeysSubset b a = true := csLeB_keysSubset hba
    simp only [csEqB, Bool.and_eq_true, Bool.not_eq_true']
    refine ⟨hab, ?_⟩
    rw [csLtB, hrevsub]
    simp

/-! ## Theorems: strict-order laws for the comparison machinery -/

theorem StrictCmp.asymm {α : Type} {lt : α → α → Bool} (s : StrictCmp lt)
    {a b : α} (h : lt a b = true) : lt b a = false := by
  cases hr : lt b a
  · rfl
  · have := s.trans h hr
    rw [s.irrefl a] at this
    cases this

theorem lexLt_strict {α : Type} {lt : α → α → Bool} (s : StrictCmp lt) :
    StrictCmp (lexLt lt) := by
  constructor
  · intro a
    induction a with
    | nil => rfl
    | cons x xs ih => simp [lexLt, s.irrefl x, ih]
  · intro a b c hab hbc
    induction a generalizing b c with
    | nil =>
      cases b with
      | nil => exact hbc
      | cons y ys =>
        cases c with
        | nil => simp [lexLt] at hbc
        | cons z zs => rfl
    | cons x xs ih =>
      cases b with
      | nil => simp [lexLt] at hab
      | cons y ys =>
        cases c with
        | nil => simp [lexLt] at hbc
        | cons z zs =>
          simp only [lexLt, Bool.or_eq_true, Bool.and_eq_true,
            Bool.not_eq_true'] at hab hbc ⊢
          rcases hab with hxy | ⟨⟨hxy1, hyx⟩, hrest1⟩
          · rcases hbc with hyz | ⟨⟨hyz1, hzy⟩, _⟩
            · exact Or.inl (s.trans hxy hyz)
            · rcases s.tri x z with h | h | h
              · exact Or.inl h
              · subst h
                rw [hxy] at hzy
                cases hzy
              · have := s.trans h hxy
                rw [hzy] at this
                cases this
          · rcases hbc with hyz | ⟨⟨hyz1, hzy⟩, hrest2⟩
            · rcases s.tri x z with h | h | h
              · exact Or.inl h
              · subst h
                rw [hyx] at hyz
                cases hyz
              · have := s.trans hyz h
                rw [hyx] at this
                cases this
            · refine Or.inr ⟨⟨?_, ?_⟩, ih hrest1 hrest2⟩
              · cases hxz : lt x z
                · rfl
                · rcases s.tri y z with h | h | h
                  · rw [hyz1] at h; cases h
                  · subst h
                    rw [hxy1] at hxz; cases hxz
                  · rw [hzy] at h; cases h
              · cases hzx : lt z x
                · rfl
                · rcases s.tri z y with h | h | h
                  · rw [hzy] at h; cases h
                  · subst h
                    rw [hyx] at hzx; cases hzx
                  · rw [hyz1] at h; cases h
  · intro a b
    induction a generalizing b with
    | nil =>
      cases b with
      | nil => exact Or.inr (Or.inl rfl)
      | cons y ys => exact Or.inl rfl
    | cons x xs ih =>
      cases b with
      | nil => exact Or.inr (Or.inr rfl)
      | cons y ys =>
        rcases s.tri x y with h | h | h
        · exact Or.inl (by simp [lexLt, h])
        · subst h
          rcases ih ys with h | h | h
          · exact Or.inl (by simp [lexLt, s.irrefl x, h])
          · exact Or.inr (Or.inl (by rw [h]))
          · exact Or.inr (Or.inr (by simp [lexLt, s.irrefl x, h]))
        · exact Or.inr (Or.inr (by simp [lexLt, h]))

theorem charLtB_strict : StrictCmp charLtB := by
  constructor
  · intro a
    simp [charLtB]
  · intro a b c hab hbc
    simp only [charLtB, decide_eq_true_eq] at *
    exact lt_trans hab hbc
  · intro a b
    rcases lt_trichotomy a b with h | h | h
    · exact Or.inl (by simp [charLtB, h])
    · exact Or.inr (Or.inl h)
    · exact Or.inr (Or.inr (by simp [charLtB, h]))

theorem strLtB_strict : StrictCmp strLtB := by
  have base := lexLt_strict charLtB_strict
  constructor
  · intro a
    exact base.irrefl a.data
  · intro a b c hab hbc
    exact base.trans hab hbc
  · intro a b
    rcases base.tri a.data b.data with h | h | h
    · exact Or.inl h
    · exact Or.inr (Or.inl (String.ext h))
    · exact Or.inr (Or.inr h)

/-- C2.  The specificity relation of `CallSpec.__le__` holds iff the key
set of the left map is a subset of the right's and every shared key maps
to equal values; `__eq__` holds iff the relation holds in both
directions; the relation is reflexive and transitive; and on the spec's
examples `{x:1} <= {x:1,y:2}` holds, `{x:1} <= {x:2,y:2}` fails, and
`{x:1,y:2}` and `{x:1,z:3}` are incomparable (so the order is not
total). -/
theorem claim_C2 :
    (∀ a b : CallSpec, csLeB a b = true ↔ SpecNotMoreSpecific a b) ∧
    (∀ a b : CallSpec, csEqB a b = true ↔ (csLeB a b = true ∧ csLeB b a = true)) ∧
    (∀ a : CallSpec, csEqB a a = true) ∧
    (∀ a b c : CallSpec, csLeB a b = true → csLeB b c = true → csLeB a c = true) ∧
    csLeB [("x", .vint 1)] [("x", .vint 1), ("y", .vint 2)] = true ∧
    csLeB [("x", .vint 1)] [("x", .vint 2), ("y", .vint 2)] = false ∧
    csLeB [("x", .vint 1), ("y", .vint 2)] [("x", .vint 1), ("z", .vint 3)] = false ∧
    csLeB [("x", .vint 1), ("z", .vint 3)] [("x", .vint 1), ("y", .vint 2)] = false := by
  refine ⟨csLeB_iff_spec, csEqB_iff_both, ?_, ?_, ?_, ?_, ?_, ?_⟩
  · intro a
    exact (csEqB_iff_both a a).mpr ⟨csLeB_refl a, csLeB_refl a⟩
  · intro a b c hab hbc
    exact csLeB_trans hab hbc
  · decide
  · decide
  · decide
  · decide

theorem claim_C2_witness :
    csLeB [("x", .vint 1)] [("x", .vint 1), ("y", .vint 2)] = true ∧
    csLeB [("x", .vint 1), ("y", .vint 2)]
      [("x", .vint 1), ("y", .vint 2), ("z", .vint 3)] = true ∧
    csLeB [("x", .vint 1)] [("x", .vint 1), ("y", .vint 2), ("z", .vint 3)] = true :=
  ⟨by decide, by decide,
    claim_C2.2.2.2.1 [("x", .vint 1)] [("x", .vint 1), ("y", .vint 2)]
      [("x", .vint 1), ("y", .vint 2), ("z", .vint 3)] (by decide) (by decide)⟩

/-! ## Theorems: `CallSpec.__init__` -/

theorem odMapFun_get_self (m : CallSpec) (k : String) (v : PyVal)
    (hc : m.any (fun p => p.1 == k) = true) :
    csGet (m.map (fun p => if p.1 == k then (k, v) else p)) k = some v := by
  induction m with
  | nil => simp at hc
  | cons p rest ih =>
      by_cases hp : p.1 = k
      · have he : (fun q : String × PyVal => if q.1 == k then (k, v) else q) p = (k, v) := by
          simp [hp]
        simp only [List.map_cons, he, csGet]
        rw [List.find?_cons_of_pos _ (by simp)]
        simp
      · have hfalse : (p.1 == k) = false := by simpa using hp
        have he : (fun q : String × PyVal => if q.1 == k then (k, v) else q) p = p := by
          simp [hfalse]
        simp only [List.map_cons, he, csGet]
        rw [List.find?_cons_of_neg _ (by simp [hfalse])]
        simp only [List.any_cons, hfalse, Bool.false_or] at hc
        simpa [csGet] using ih hc

theorem odInsert_get_self (m : CallSpec) (k : String) (v : PyVal) :
    csGet (odInsert m k v) k = some v := by
  simp only [odInsert]
  split
  case isTrue hc => exact odMapFun_get_self m k v hc
  case isFalse hc =>
    simp only [csGet]
    rw [List.find?_append]
    have hnone : List.find? (fun p => p.1 == k) m = none := by
      rw [List.find?_eq_none]
      intro p hp
      simp only [Bool.not_eq_true]
      cases h : (p.1 == k)
      · rfl
      · exact absurd (List.any_eq_true.mpr ⟨p, hp, h⟩) hc
    rw [hnone]
    simp

theorem odMapFun_get_other (m : CallSpec) (k k' : String) (v : PyVal)
    (hne : k' ≠ k) :
    csGet (m.map (fun p => if p.1 == k then (k, v) else p)) k' = csGet m k' := by
  induction m with
  | nil => simp
  | cons p rest ih =>
      by_cases hp : p.1 = k
      · have he : (fun q : String × PyVal => if q.1 == k then (k, v) else q) p = (k, v) := by
          simp [hp]
        simp only [List.map_cons, he, csGet]
        rw [List.find?_cons_of_neg _ (by simp; exact fun h => hne h.symm),
          List.find?_cons_of_neg _ (by simp [hp]; exact fun h => hne h.symm)]
        simpa [csGet] using ih
      · have hfalse : (p.1 == k) = false := by simpa using hp
        have he : (fun q : String × PyVal => if q.1 == k then (k, v) else q) p = p := by
          simp [hfalse]
        simp only [List.map_cons, he, csGet]
        by_cases hq : p.1 = k'
        · rw [List.find?_cons_of_pos _ (by simp [hq]),
            List.find?_cons_of_pos _ (by simp [hq])]
        · rw [List.find?_cons_of_neg _ (by simp [hq]),
            List.find?_cons_of_neg _ (by simp [hq])]
          simpa [csGet] using ih

theorem odInsert_get_other (m : CallSpec) (k k' : String) (v : PyVal)
    (hne : k' ≠ k) : csGet (odInsert m k v) k' = csGet m k' := by
  simp only [odInsert]
  split
  · exact odMapFun_get_other m k k' v hne
  · simp only [csGet]
    rw [List.find?_append]
    have hnone : List.find? (fun p => p.1 == k') [(k, v)] = none := by
      simp
      exact fun h => hne h.symm
    rw [hnone]
    simp

theorem odFromList_snoc (l : List (String × PyVal)) (k : String) (v : PyVal) :
    odFromList (l ++ [(k, v)]) = odInsert (odFromList l) k v := by
  simp [odFromList, List.foldl_append]

theorem odFromList_get (l : List (String × PyVal)) (k : String) :
    csGet (odFromList l) k = (l.reverse.find? (fun p => p.1 == k)).map (·.2) := by
  induction l using List.reverseRecOn with
  | nil => simp [odFromList, csGet]
  | append_singleton l p ih =>
      rcases p with ⟨k0, v0⟩
      rw [odFromList_snoc]
      rw [List.reverse_append]
      simp only [List.reverse_singleton, List.singleton_append, List.find?]
      by_cases hk : k0 == k
      · have hk' : k0 = k := by simpa using hk
        subst hk'
        rw [odInsert_get_self]
        simp
      · have hk' : (k0 == k) = false := by
          cases h : (k0 == k)
          · rfl
          · exact absurd h (by simpa using hk)
        rw [odInsert_get_other _ _ _ _ (fun h => hk (by simp [h]))]
        rw [hk']
        exact ih

theorem callSpecInit_ok_shape (sig : Sig) (varargs : List PyVal)
    (keywords : List (String × PyVal))
    (hv : varargs.length ≤ sig.names.length)
    (hk : ∀ p ∈ keywords, p.1 ∈ sig.names) :
    callSpecInit sig varargs keywords =
      .ok (odFromList (List.zip sig.names varargs ++
        sig.names.filterMap (fun n => (kwGet keywords n).map (fun v => (n, v))))) := by
  have hzip : (List.zip sig.names varargs).length = varargs.length := by
    rw [List.length_zip]
    omega
  have hrest : varargs.drop (List.zip sig.names varargs).length = [] := by
    rw [hzip]
    exact List.drop_length _
  have hleft : keywords.filter (fun p => !(sig.names.contains p.1)) = [] := by
    rw [List.filter_eq_nil_iff]
    intro p hp
    simp only [Bool.not_eq_true', Bool.not_eq_false]
    exact List.elem_eq_true_of_mem (hk p hp)
  rcases hvn : sig.varargsName with _ | vn <;>
    rcases hkn : sig.keywordsName with _ | kn <;>
    simp only [callSpecInit, hrest, hleft, hvn, hkn, List.isEmpty_nil, Bool.not_true,
      Bool.false_and, Option.isNone_none, Option.isNone_some, Bool.and_false,
      Bool.and_true, Bool.false_eq_true, if_false, List.append_nil]

theorem callSpecInit_error_cases (sig : Sig) (varargs : List PyVal)
    (keywords : List (String × PyVal)) :
    (isErr (callSpecInit sig varargs keywords) = true ↔
      ((!(varargs.drop (List.zip sig.names varargs).length).isEmpty &&
          sig.varargsName.isNone) = true ∨
       (!(keywords.filter (fun p => !(sig.names.contains p.1))).isEmpty &&
          sig.keywordsName.isNone) = true)) ∧
    (∀ e, callSpecInit sig varargs keywords = .error e → e = Err.valueError) := by
  simp only [callSpecInit]
  split
  · rename_i h
    constructor
    · simp only [isErr]
      exact ⟨fun _ => Or.inl h, fun _ => trivial⟩
    · intro e he
      cases he
      rfl
  · rename_i h
    split
    · rename_i h2
      constructor
      · simp only [isErr]
        exact ⟨fun _ => Or.inr h2, fun _ => trivial⟩
      · intro e he
        cases he
        rfl
    · rename_i h2
      constructor
      · simp only [isErr]
        constructor
        · intro hfalse
          cases hfalse
        · intro hor
          rcases hor with hc | hc
          · exact absurd hc h
          · exact absurd hc h2
      · intro e he
        cases he

/-- C7.  Identity computation (`CallSpec.__init__`) raises exactly when
the positional arguments outnumber the declared parameters without a
variadic-positional declaration, or a keyword argument names an
undeclared parameter without a variadic-keyword declaration; the raised
exception is the `ValueError` the spec calls SignatureError.  For all
other inputs it succeeds, and in the non-variadic case returns the
ordered dict binding positional arguments to declared names in order and
overlaying the keyword arguments (the keyword value wins for a name bound
both ways). -/
theorem claim_C7 (sig : Sig) (varargs : List PyVal)
    (keywords : List (String × PyVal)) :
    (isErr (callSpecInit sig varargs keywords) = true ↔
      ((sig.names.length < varargs.length ∧ sig.varargsName = none) ∨
       ((∃ p ∈ keywords, p.1 ∉ sig.names) ∧ sig.keywordsName = none))) ∧
    (∀ e, callSpecInit sig varargs keywords = .error e → e = Err.valueError) ∧
    (varargs.length ≤ sig.names.length → (∀ p ∈ keywords, p.1 ∈ sig.names) →
      callSpecInit sig varargs keywords =
        .ok (odFromList (List.zip sig.names varargs ++
          sig.names.filterMap (fun n => (kwGet keywords n).map (fun v => (n, v))))) ∧
      ∀ n v, n ∈ sig.names → kwGet keywords n = some v →
        csGet (odFromList (List.zip sig.names varargs ++
          sig.names.filterMap (fun n => (kwGet keywords n).map (fun v => (n, v))))) n
          = some v) := by
  obtain ⟨herr, hkind⟩ := callSpecInit_error_cases sig varargs keywords
  refine ⟨?_, hkind, ?_⟩
  · rw [herr]
    have hA : (!(varargs.drop (List.zip sig.names varargs).length).isEmpty &&
        sig.varargsName.isNone) = true ↔
        (sig.names.length < varargs.length ∧ sig.varargsName = none) := by
      rw [Bool.and_eq_true, Bool.not_eq_true', List.isEmpty_eq_false,
        Option.isNone_iff_eq_none, ne_eq, List.drop_eq_nil_iff, List.length_zip]
      constructor
      · intro ⟨h1, h2⟩
        refine ⟨?_, h2⟩
        omega
      · intro ⟨h1, h2⟩
        refine ⟨?_, h2⟩
        omega
    have hB : (!(keywords.filter (fun p => !(sig.names.contains p.1))).isEmpty &&
        sig.keywordsName.isNone) = true ↔
        ((∃ p ∈ keywords, p.1 ∉ sig.names) ∧ sig.keywordsName = none) := by
      rw [Bool.and_eq_true, Bool.not_eq_true', List.isEmpty_eq_false,
        Option.isNone_iff_eq_none, ne_eq]
      constructor
      · intro ⟨h1, h2⟩
        refine ⟨?_, h2⟩
        by_contra hno
        push_neg at hno
        apply h1
        rw [List.filter_eq_nil_iff]
        intro p hp
        simp only [Bool.not_eq_true', Bool.not_eq_false]
        exact List.elem_eq_true_of_mem (hno p hp)
      · intro ⟨⟨p, hp, hnot⟩, h2⟩
        refine ⟨?_, h2⟩
        intro hnil
        rw [List.filter_eq_nil_iff] at hnil
        have := hnil p hp
        simp only [Bool.not_eq_true', Bool.not_eq_false] at this
        exact hnot (List.mem_of_elem_eq_true this)
    rw [hA, hB]
  · intro hv hk
    refine ⟨callSpecInit_ok_shape sig varargs keywords hv hk, ?_⟩
    intro n v hn hkw
    rw [odFromList_get, List.reverse_append, List.find?_append]
    have hvals : ∀ q ∈ (sig.names.filterMap
        (fun m => (kwGet keywords m).map (fun w => (m, w)))), q.1 == n → q.2 = v := by
      intro q hq hqn
      rw [List.mem_filterMap] at hq
      rcases hq with ⟨m, _, he⟩
      rcases hg : kwGet keywords m with _ | w
      · rw [hg] at he
        simp at he
      · rw [hg] at he
        simp only [Option.map_some'] at he
        have hq : (m, w) = q := Option.some_inj.mp he
        have hqn' : q.1 = n := by simpa using hqn
        have hm : m = n := by
          rw [← hq] at hqn'
          simpa using hqn'
        rw [← hq]
        rw [hm] at hg
        rw [hg] at hkw
        exact Option.some_inj.mp hkw
    rcases hfind : List.find? (fun p => p.1 == n)
        (sig.names.filterMap (fun m => (kwGet keywords m).map (fun w => (m, w)))).reverse
        with _ | q
    · exfalso
      rw [List.find?_eq_none] at hfind
      have hmem : (n, v) ∈ (sig.names.filterMap
          (fun m => (kwGet keywords m).map (fun w => (m, w)))).reverse := by
        rw [List.mem_reverse, List.mem_filterMap]
        exact ⟨n, hn, by rw [hkw]; rfl⟩
      have := hfind _ hmem
      simp at this
    · have hq1 := List.find?_some hfind
      have hq2 := List.mem_of_find?_eq_some hfind
      rw [List.mem_reverse] at hq2
      have := hvals q hq2 hq1
      simp only [Option.or, hfind]
      rw [Option.map_some', this]

/-! ## Theorems: the Python equalities are equivalence relations -/

theorem csGet_none_of_not_contains {m : CallSpec} {k : String}
    (h : csContains m k = false) : csGet m k = none := by
  simp only [csGet, Option.map_eq_none']
  rw [List.find?_eq_none]
  intro p hp
  simp only [Bool.not_eq_true]
  cases hq : (p.1 == k)
  · rfl
  · exfalso
    have : csContains m k = true := csContains_iff.mpr ⟨p, hp, by simpa using hq⟩
    rw [h] at this
    cases this

theorem csGet_eq_of_csEqB {a b : CallSpec} (h : csEqB a b = true) :
    ∀ k, csGet a k = csGet b k := by
  obtain ⟨hab, hba⟩ := (csEqB_iff_both a b).mp h
  rw [csLeB_iff_spec] at hab hba
  intro k
  by_cases hc : csContains a k = true
  · exact hab.2 k hc (hab.1 k hc)
  · have hc1 : csContains a k = false := by
      cases hx : csContains a k
      · rfl
      · exact absurd hx hc
    by_cases hc' : csContains b k = true
    · exact absurd (hba.1 k hc') hc
    · have hc2 : csContains b k = false := by
        cases hx : csContains b k
        · rfl
        · exact absurd hx hc'
      rw [csGet_none_of_not_contains hc1, csGet_none_of_not_contains hc2]

theorem csContains_eq_of_csEqB {a b : CallSpec} (h : csEqB a b = true) :
    ∀ k, csContains a k = csContains b k := by
  obtain ⟨hab, hba⟩ := (csEqB_iff_both a b).mp h
  rw [csLeB_iff_spec] at hab hba
  intro k
  cases hx : csContains b k
  · cases hy : csContains a k
    · rfl
    · rw [hab.1 k hy] at hx
      cases hx
  · cases hy : csContains a k
    · rw [hba.1 k hx] at hy
      cases hy
    · rfl

theorem csEqB_refl (a : CallSpec) : csEqB a a = true :=
  (csEqB_iff_both a a).mpr ⟨csLeB_refl a, csLeB_refl a⟩

theorem csEqB_symm {a b : CallSpec} (h : csEqB a b = true) : csEqB b a = true := by
  obtain ⟨hab, hba⟩ := (csEqB_iff_both a b).mp h
  exact (csEqB_iff_both b a).mpr ⟨hba, hab⟩

theorem csEqB_trans {a b c : CallSpec} (hab : csEqB a b = true)
    (hbc : csEqB b c = true) : csEqB a c = true := by
  obtain ⟨h1, h2⟩ := (csEqB_iff_both a b).mp hab
  obtain ⟨h3, h4⟩ := (csEqB_iff_both b c).mp hbc
  exact (csEqB_iff_both a c).mpr ⟨csLeB_trans h1 h3, csLeB_trans h4 h2⟩

theorem labelBeq_refl (l : Label) : labelBeq l l = true := by
  cases l <;> simp [labelBeq, csEqB_refl]

theorem labelBeq_symm : ∀ {l m : Label}, labelBeq l m = true → labelBeq m l = true
  | .lstr a, .lstr b, h => by
      simp only [labelBeq] at h ⊢
      have e : a = b := by simpa using h
      simp [e]
  | .lspec _, .lspec _, h => csEqB_symm h
  | .lpair ta a, .lpair tb b, h => by
      simp only [labelBeq] at h ⊢
      rw [Bool.and_eq_true] at h ⊢
      obtain ⟨h1, h2⟩ := h
      have e : ta = tb := by simpa using h1
      exact ⟨by simp [e], csEqB_symm h2⟩
  | .lstr _, .lspec _, h => by simp [labelBeq] at h
  | .lstr _, .lpair _ _, h => by simp [labelBeq] at h
  | .lspec _, .lstr _, h => by simp [labelBeq] at h
  | .lspec _, .lpair _ _, h => by simp [labelBeq] at h
  | .lpair _ _, .lstr _, h => by simp [labelBeq] at h
  | .lpair _ _, .lspec _, h => by simp [labelBeq] at h

theorem labelBeq_trans : ∀ {l m n : Label}, labelBeq l m = true →
    labelBeq m n = true → labelBeq l n = true
  | .lstr a, .lstr b, .lstr c, hlm, hmn => by
      simp only [labelBeq] at hlm hmn ⊢
      have e1 : a = b := by simpa using hlm
      have e2 : b = c := by simpa using hmn
      simp [e1, e2]
  | .lspec _, .lspec _, .lspec _, hlm, hmn => csEqB_trans hlm hmn
  | .lpair ta a, .lpair tb b, .lpair tc c, hlm, hmn => by
      simp only [labelBeq] at hlm hmn ⊢
      rw [Bool.and_eq_true] at hlm hmn ⊢
      obtain ⟨h1, h2⟩ := hlm
      obtain ⟨h3, h4⟩ := hmn
      have e1 : ta = tb := by simpa using h1
      have e2 : tb = tc := by simpa using h3
      exact ⟨by simp [e1, e2], csEqB_trans h2 h4⟩
  | .lstr _, .lspec _, _, hlm, _ => by simp [labelBeq] at hlm
  | .lstr _, .lpair _ _, _, hlm, _ => by simp [labelBeq] at hlm
  | .lspec _, .lstr _, _, hlm, _ => by simp [labelBeq] at hlm
  | .lspec _, .lpair _ _, _, hlm, _ => by simp [labelBeq] at hlm
  | .lpair _ _, .lstr _, _, hlm, _ => by simp [labelBeq] at hlm
  | .lpair _ _, .lspec _, _, hlm, _ => by simp [labelBeq] at hlm
  | .lstr _, .lstr _, .lspec _, _, hmn => by simp [labelBeq] at hmn
  | .lstr _, .lstr _, .lpair _ _, _, hmn => by simp [labelBeq] at hmn
  | .lspec _, .lspec _, .lstr _, _, hmn => by simp [labelBeq] at hmn
  | .lspec _, .lspec _, .lpair _ _, _, hmn => by simp [labelBeq] at hmn
  | .lpair _ _, .lpair _ _, .lstr _, _, hmn => by simp [labelBeq] at hmn
  | .lpair _ _, .lpair _ _, .lspec _, _, hmn => by simp [labelBeq] at hmn

theorem labelMem_of_beq {L : List Label} {l m : Label} (hm : labelMem L l = true)
    (h : labelBeq l m = true) : labelMem L m = true := by
  simp only [labelMem, List.any_eq_true] at hm ⊢
  rcases hm with ⟨x, hx, hbeq⟩
  exact ⟨x, hx, labelBeq_trans hbeq h⟩

theorem labelMem_mono {L : List Label} {l : Label} (hl : l ∈ L) :
    labelMem L l = true := by
  simp only [labelMem, List.any_eq_true]
  exact ⟨l, hl, labelBeq_refl l⟩

theorem labelSetEq_mem {A B : List Label} (h : labelSetEq A B = true) :
    ∀ l, labelMem A l = labelMem B l := by
  simp only [labelSetEq, Bool.and_eq_true, List.all_eq_true] at h
  obtain ⟨hAB, hBA⟩ := h
  intro l
  cases hx : labelMem B l
  · cases hy : labelMem A l
    · rfl
    · exfalso
      simp only [labelMem, List.any_eq_true] at hy
      rcases hy with ⟨x, hxA, hbeq⟩
      have := labelMem_of_beq (hAB x hxA) hbeq
      rw [hx] at this
      cases this
  · cases hy : labelMem A l
    · exfalso
      simp only [labelMem, List.any_eq_true] at hx
      rcases hx with ⟨x, hxB, hbeq⟩
      have := labelMem_of_beq (hBA x hxB) hbeq
      rw [hy] at this
      cases this
    · rfl

theorem labelSetEq_refl (A : List Label) : labelSetEq A A = true := by
  simp only [labelSetEq, Bool.and_eq_true, List.all_eq_true, and_self]
  intro l hl
  exact labelMem_mono hl

theorem labelSetEq_symm {A B : List Label} (h : labelSetEq A B = true) :
    labelSetEq B A = true := by
  simp only [labelSetEq, Bool.and_eq_true] at h ⊢
  exact ⟨h.2, h.1⟩

theorem labelSetEq_trans {A B C : List Label} (hab : labelSetEq A B = true)
    (hbc : labelSetEq B C = true) : labelSetEq A C = true := by
  have h1 := labelSetEq_mem hab
  have h2 := labelSetEq_mem hbc
  simp only [labelSetEq, Bool.and_eq_true, List.all_eq_true]
  constructor
  · intro l hl
    rw [← h2, ← h1]
    exact labelMem_mono hl
  · intro l hl
    rw [h1, h2]
    exact labelMem_mono hl

theorem keyBeq_refl (o : Obj) : keyBeq o o = true := by
  simp [keyBeq, csEqB_refl, labelSetEq_refl]

theorem keyBeq_symm {a b : Obj} (h : keyBeq a b = true) : keyBeq b a = true := by
  simp only [keyBeq, Bool.and_eq_true] at h ⊢
  obtain ⟨⟨h1, h2⟩, h3⟩ := h
  have e : a.tn = b.tn := by simpa using h1
  exact ⟨⟨by simp [e], csEqB_symm h2⟩, labelSetEq_symm h3⟩

theorem keyBeq_trans {a b c : Obj} (hab : keyBeq a b = true)
    (hbc : keyBeq b c = true) : keyBeq a c = true := by
  simp only [keyBeq, Bool.and_eq_true] at hab hbc ⊢
  obtain ⟨⟨h1, h2⟩, h3⟩ := hab
  obtain ⟨⟨h4, h5⟩, h6⟩ := hbc
  have e1 : a.tn = b.tn := by simpa using h1
  have e2 : b.tn = c.tn := by simpa using h4
  exact ⟨⟨by simp [e1, e2], csEqB_trans h2 h5⟩, labelSetEq_trans h3 h6⟩

/-! ## Theorems: canonical serialization is insertion-order independent -/

theorem StrictCmp.le_total {α : Type} {lt : α → α → Bool} (s : StrictCmp lt)
    (a b : α) : lt b a = false ∨ lt a b = false := by
  cases hab : lt a b
  · exact Or.inr rfl
  · exact Or.inl (s.asymm hab)

theorem StrictCmp.le_trans' {α : Type} {lt : α → α → Bool} (s : StrictCmp lt)
    {a b c : α} (h1 : lt b a = false) (h2 : lt c b = false) : lt c a = false := by
  cases hca : lt c a
  · rfl
  · rcases s.tri c b with h | h | h
    · rw [h2] at h
      cases h
    · subst h
      rw [h1] at hca
      cases hca
    · have := s.trans h hca
      rw [h1] at this
      cases this

theorem StrictCmp.le_antisymm {α : Type} {lt : α → α → Bool} (s : StrictCmp lt)
    {a b : α} (h1 : lt b a = false) (h2 : lt a b = false) : a = b := by
  rcases s.tri a b with h | h | h
  · rw [h2] at h
    cases h
  · exact h
  · rw [h1] at h
    cases h

theorem jsonDumpKVs_eq_map (l : List (String × PyVal)) :
    jsonDumpKVs l = l.map (fun p => (p.1, jsonDump p.2)) := by
  induction l with
  | nil => rfl
  | cons p rest ih =>
      rcases p with ⟨k, v⟩
      simp [jsonDumpKVs, ih]

theorem pairKeyLe_total : ∀ a b : String × String, pairKeyLe a b ∨ pairKeyLe b a := by
  intro a b
  rcases strLtB_strict.le_total a.1 b.1 with h | h
  · exact Or.inl h
  · exact Or.inr h

theorem pairKeyLe_trans : ∀ {a b c : String × String},
    pairKeyLe a b → pairKeyLe b c → pairKeyLe a c := by
  intro a b c h1 h2
  exact strLtB_strict.le_trans' h1 h2

theorem sortPairs_sorted (l : List (String × String)) :
    (sortPairs l).Sorted pairKeyLe := by
  haveI : IsTotal (String × String) pairKeyLe := ⟨pairKeyLe_total⟩
  haveI : IsTrans (String × String) pairKeyLe := ⟨fun _ _ _ => pairKeyLe_trans⟩
  exact List.sorted_insertionSort pairKeyLe l

theorem sortPairs_perm (l : List (String × String)) : (sortPairs l).Perm l :=
  List.perm_insertionSort pairKeyLe l

theorem sorted_pairs_unique : ∀ {l1 l2 : List (String × String)},
    l1.Sorted pairKeyLe → l2.Sorted pairKeyLe → l1.Perm l2 →
    (l1.map Prod.fst).Nodup → l1 = l2 := by
  intro l1
  induction l1 with
  | nil =>
      intro l2 _ _ hperm _
      exact (List.Perm.eq_nil hperm.symm).symm
  | cons p t1 ih =>
      intro l2 hs1 hs2 hperm hnd
      cases l2 with
      | nil => exact absurd (List.Perm.eq_nil hperm) (by simp)
      | cons q t2 =>
          by_cases hpq : p = q
          · subst hpq
            have ht1 : t1.Sorted pairKeyLe := (List.sorted_cons.mp hs1).2
            have ht2 : t2.Sorted pairKeyLe := (List.sorted_cons.mp hs2).2
            have hnd' : (t1.map Prod.fst).Nodup := by
              simp only [List.map_cons, List.nodup_cons] at hnd
              exact hnd.2
            rw [ih ht1 ht2 hperm.cons_inv hnd']
          · exfalso
            have hpmem : p ∈ q :: t2 := hperm.subset (List.mem_cons_self p t1)
            have hqmem : q ∈ p :: t1 := hperm.symm.subset (List.mem_cons_self q t2)
            have hp2 : p ∈ t2 := by
              rcases List.mem_cons.mp hpmem with h | h
              · exact absurd h hpq
              · exact h
            have hq1 : q ∈ t1 := by
              rcases List.mem_cons.mp hqmem with h | h
              · exact absurd h.symm hpq
              · exact h
            have h1 : pairKeyLe p q := (List.sorted_cons.mp hs1).1 q hq1
            have h2 : pairKeyLe q p := (List.sorted_cons.mp hs2).1 p hp2
            have hkey : p.1 = q.1 := strLtB_strict.le_antisymm h1 h2
            simp only [List.map_cons, List.nodup_cons] at hnd
            apply hnd.1
            rw [hkey]
            exact List.mem_map_of_mem Prod.fst hq1

theorem mem_iff_csGet {m : CallSpec} (hnd : SpecWF m) {k : String} {v : PyVal} :
    (k, v) ∈ m ↔ csGet m k = some v := by
  constructor
  · intro hm
    rcases hsome : m.find? (fun p => p.1 == k) with _ | q
    · rw [List.find?_eq_none] at hsome
      exact absurd (by simp : (((k, v) : String × PyVal).1 == k) = true)
        (hsome _ hm)
    · have hq1 : q.1 = k := by simpa using List.find?_some hsome
      have hq2 := List.mem_of_find?_eq_some hsome
      have hqe : q = (k, v) := by
        have := List.inj_on_of_nodup_map hnd hq2 hm (by simp [hq1])
        exact this
      simp [csGet, hsome, hqe]
  · intro hg
    simp only [csGet, Option.map_eq_some'] at hg
    rcases hg with ⟨q, hq, hv⟩
    have hmem := List.mem_of_find?_eq_some hq
    have hq1 : q.1 = k := by simpa using List.find?_some hq
    have hqe : q = (k, v) := by
      rcases q with ⟨q1, q2⟩
      simp only at hq1 hv
      rw [hq1, hv]
    rwa [hqe] at hmem

theorem jsonDumpKVs_fst (m : CallSpec) :
    (jsonDumpKVs m).map Prod.fst = m.map Prod.fst := by
  rw [jsonDumpKVs_eq_map, List.map_map]
  rfl

theorem csDump_congr {a b : CallSpec} (ha : SpecWF a) (hb : SpecWF b)
    (heq : csEqB a b = true) : csDump a = csDump b := by
  have hget := csGet_eq_of_csEqB heq
  have hmemiff : ∀ p : String × String, p ∈ jsonDumpKVs a ↔ p ∈ jsonDumpKVs b := by
    intro p
    rw [jsonDumpKVs_eq_map, jsonDumpKVs_eq_map]
    simp only [List.mem_map]
    constructor
    · rintro ⟨q, hq, rfl⟩
      rcases q with ⟨k, v⟩
      have hga : csGet a k = some v := (mem_iff_csGet ha).mp hq
      rw [hget] at hga
      exact ⟨(k, v), (mem_iff_csGet hb).mpr hga, rfl⟩
    · rintro ⟨q, hq, rfl⟩
      rcases q with ⟨k, v⟩
      have hgb : csGet b k = some v := (mem_iff_csGet hb).mp hq
      rw [← hget] at hgb
      exact ⟨(k, v), (mem_iff_csGet ha).mpr hgb, rfl⟩
  have hnda : ((jsonDumpKVs a).map Prod.fst).Nodup := by
    rw [jsonDumpKVs_fst]
    exact ha
  have hndb : ((jsonDumpKVs b).map Prod.fst).Nodup := by
    rw [jsonDumpKVs_fst]
    exact hb
  have hperm : (jsonDumpKVs a).Perm (jsonDumpKVs b) :=
    List.perm_of_nodup_nodup_toFinset_eq (List.Nodup.of_map _ hnda)
      (List.Nodup.of_map _ hndb)
      (Finset.ext fun p => by
        rw [List.mem_toFinset, List.mem_toFinset]
        exact hmemiff p)
  have hsort : sortPairs (jsonDumpKVs a) = sortPairs (jsonDumpKVs b) := by
    apply sorted_pairs_unique (sortPairs_sorted _) (sortPairs_sorted _)
    · exact (sortPairs_perm _).trans (hperm.trans (sortPairs_perm _).symm)
    · have hp : ((sortPairs (jsonDumpKVs a)).map Prod.fst).Perm
          ((jsonDumpKVs a).map Prod.fst) := (sortPairs_perm _).map _
      exact hp.nodup_iff.mpr hnda
  simp only [csDump, jsonDumpObj, hsort]

theorem csHash_congr {a b : CallSpec} (ha : SpecWF a) (hb : SpecWF b)
    (heq : csEqB a b = true) : csHash a = csHash b := by
  simp only [csHash, csDump_congr ha hb heq]

/-! ## Theorems: the frozenset hash respects set equality -/

theorem labelBeq_false_symm {x y : Label} (h : labelBeq x y = false) :
    labelBeq y x = false := by
  cases hb : labelBeq y x
  · rfl
  · rw [labelBeq_symm hb] at h
    cases h

theorem labelHash_congr : ∀ {l m : Label}, labelBeq l m = true →
    LabelWF l → LabelWF m → labelHash l = labelHash m
  | .lstr a, .lstr b, h, _, _ => by
      have e : a = b := by simpa [labelBeq] using h
      rw [e]
  | .lspec a, .lspec b, h, wa, wb => by
      simp only [labelHash]
      exact csHash_congr wa wb h
  | .lpair ta a, .lpair tb b, h, wa, wb => by
      simp only [labelBeq] at h
      rw [Bool.and_eq_true] at h
      have e : ta = tb := by simpa using h.1
      simp only [labelHash, e, csHash_congr wa wb h.2]
  | .lstr _, .lspec _, h, _, _ => by simp [labelBeq] at h
  | .lstr _, .lpair _ _, h, _, _ => by simp [labelBeq] at h
  | .lspec _, .lstr _, h, _, _ => by simp [labelBeq] at h
  | .lspec _, .lpair _ _, h, _, _ => by simp [labelBeq] at h
  | .lpair _ _, .lstr _, h, _, _ => by simp [labelBeq] at h
  | .lpair _ _, .lspec _, h, _, _ => by simp [labelBeq] at h

theorem labelDedup_pairwise (L : List Label) :
    (labelDedup L).Pairwise (fun x y => labelBeq x y = false) := by
  induction L with
  | nil => exact List.Pairwise.nil
  | cons x t ih =>
      simp only [labelDedup]
      rw [List.pairwise_cons]
      constructor
      · intro y hy
        have := (List.mem_filter.mp hy).2
        simpa using this
      · exact List.Pairwise.sublist (List.filter_sublist _) ih

theorem labelDedup_subset {L : List Label} {x : Label} (h : x ∈ labelDedup L) :
    x ∈ L := by
  induction L with
  | nil => simpa [labelDedup] using h
  | cons y t ih =>
      simp only [labelDedup, List.mem_cons] at h
      rcases h with h | h
      · exact h ▸ List.mem_cons_self y t
      · exact List.mem_cons_of_mem y (ih (List.mem_filter.mp h).1)

theorem labelDedup_mem (L : List Label) (l : Label) :
    labelMem (labelDedup L) l = labelMem L l := by
  induction L with
  | nil => rfl
  | cons x t ih =>
      simp only [labelDedup, labelMem, List.any_cons]
      by_cases hxl : labelBeq x l = true
      · simp [hxl]
      · have hxl' : labelBeq x l = false := by
          cases hb : labelBeq x l
          · rfl
          · exact absurd hb hxl
        rw [hxl']
        simp only [Bool.false_or]
        have ih' : ((labelDedup t).any fun z => labelBeq z l) =
            t.any fun z => labelBeq z l := by
          simpa only [labelMem] using ih
        rw [← ih']
        cases hany : (labelDedup t).any (fun z => labelBeq z l)
        · rw [List.any_eq_false] at hany ⊢
          intro z hz
          exact hany z (List.mem_of_mem_filter hz)
        · rw [List.any_eq_true] at hany ⊢
          rcases hany with ⟨z, hz, hzl⟩
          refine ⟨z, List.mem_filter.mpr ⟨hz, ?_⟩, hzl⟩
          simp only [Bool.not_eq_eq_eq_not, Bool.not_true]
          cases hxz : labelBeq x z
          · rfl
          · exfalso
            have : labelBeq x l = true := labelBeq_trans hxz hzl
            rw [hxl'] at this
            cases this

theorem label_hash_perm : ∀ (A B : List Label),
    A.Pairwise (fun x y => labelBeq x y = false) →
    B.Pairwise (fun x y => labelBeq x y = false) →
    (∀ l, labelMem A l = labelMem B l) →
    (∀ l ∈ A, LabelWF l) → (∀ l ∈ B, LabelWF l) →
    (A.map labelHash).Perm (B.map labelHash) := by
  intro A
  induction A with
  | nil =>
      intro B _ _ hm _ _
      cases B with
      | nil => simp
      | cons y B' =>
          exfalso
          have h1 := hm y
          have h2 : labelMem (y :: B') y = true := labelMem_mono (List.mem_cons_self y B')
          rw [h2] at h1
          simp [labelMem] at h1
  | cons x t ih =>
      intro B hpA hpB hm hwA hwB
      have hxB : labelMem B x = true := by
        rw [← hm x]
        exact labelMem_mono (List.mem_cons_self x t)
      simp only [labelMem, List.any_eq_true] at hxB
      rcases hxB with ⟨y, hyB, hbeq⟩
      rcases List.append_of_mem hyB with ⟨B1, B2, rfl⟩
      have hwx : LabelWF x := hwA x (List.mem_cons_self x t)
      have hwy : LabelWF y := hwB y hyB
      have hhash : labelHash y = labelHash x := labelHash_congr hbeq hwy hwx
      rw [List.pairwise_append] at hpB
      obtain ⟨hpB1, hpB2', hcross⟩ := hpB
      have hpy := List.pairwise_cons.mp hpB2'
      have hpt := List.pairwise_cons.mp hpA
      have hpB' : (B1 ++ B2).Pairwise (fun a b => labelBeq a b = false) := by
        rw [List.pairwise_append]
        exact ⟨hpB1, hpy.2, fun a ha b hb => hcross a ha b (List.mem_cons_of_mem y hb)⟩
      have hm' : ∀ l, labelMem t l = labelMem (B1 ++ B2) l := by
        intro l
        have hml := hm l
        simp only [labelMem, List.any_cons, List.any_append] at hml ⊢
        by_cases hxl : labelBeq x l = true
        · have hyl : labelBeq y l = true := labelBeq_trans hbeq hxl
          have ht : t.any (fun z => labelBeq z l) = false := by
            rw [List.any_eq_false]
            intro z hz hzl
            have hzx : labelBeq z x = true := labelBeq_trans hzl (labelBeq_symm hxl)
            have hfalse := hpt.1 z hz
            rw [labelBeq_symm hzx] at hfalse
            cases hfalse
          have hB1 : B1.any (fun z => labelBeq z l) = false := by
            rw [List.any_eq_false]
            intro z hz hzl
            have hzy : labelBeq z y = true := labelBeq_trans hzl (labelBeq_symm hyl)
            have hfalse := hcross z hz y (List.mem_cons_self y B2)
            rw [hzy] at hfalse
            cases hfalse
          have hB2 : B2.any (fun z => labelBeq z l) = false := by
            rw [List.any_eq_false]
            intro z hz hzl
            have hzy : labelBeq z y = true := labelBeq_trans hzl (labelBeq_symm hyl)
            have hfalse := hpy.1 z hz
            rw [labelBeq_symm hzy] at hfalse
            cases hfalse
          rw [ht, hB1, hB2]
          simp
        · have hxl' : labelBeq x l = false := by
            cases hb : labelBeq x l
            · rfl
            · exact absurd hb hxl
          have hyl' : labelBeq y l = false := by
            cases hb : labelBeq y l
            · rfl
            · exfalso
              have : labelBeq x l = true :=
                labelBeq_trans (labelBeq_symm hbeq) hb
              rw [hxl'] at this
              cases this
          rw [hxl', hyl'] at hml
          simpa using hml
      have ihp := ih (B1 ++ B2) hpt.2 hpB' hm'
        (fun l hl => hwA l (List.mem_cons_of_mem x hl))
        (fun l hl => hwB l (by
          rcases List.mem_append.mp hl with h | h
          · exact List.mem_append.mpr (Or.inl h)
          · exact List.mem_append.mpr (Or.inr (List.mem_cons_of_mem y h))))
      have hmid : ((B1 ++ y :: B2).map labelHash).Perm
          (labelHash y :: ((B1 ++ B2).map labelHash)) := by
        rw [List.map_append, List.map_cons, List.map_append]
        exact List.perm_middle
      refine List.Perm.trans ?_ hmid.symm
      rw [List.map_cons, hhash]
      exact ihp.cons _

theorem fsetHashL_congr (A B : List Label) (h : labelSetEq A B = true)
    (hwA : ∀ l ∈ A, LabelWF l) (hwB : ∀ l ∈ B, LabelWF l) :
    fsetHashL A = fsetHashL B := by
  have hperm : ((labelDedup A).map labelHash).Perm ((labelDedup B).map labelHash) := by
    apply label_hash_perm _ _ (labelDedup_pairwise A) (labelDedup_pairwise B)
    · intro l
      rw [labelDedup_mem, labelDedup_mem]
      exact labelSetEq_mem h l
    · exact fun l hl => hwA l (labelDedup_subset hl)
    · exact fun l hl => hwB l (labelDedup_subset hl)
  have hlen : ((labelDedup A).map labelHash).length =
      ((labelDedup B).map labelHash).length := hperm.length_eq
  haveI : RightCommutative
      (fun (h : Nat) (eh : Nat) =>
        h ^^^ mask64 ((eh ^^^ mask64 (eh <<< 16) ^^^ 89869747) * 3644798167)) := by
    constructor
    intro b a1 a2
    simp only [Nat.xor_assoc]
    exact congrArg (fun z => b ^^^ z) (Nat.xor_comm _ _)
  simp only [fsetHashL, pyFrozensetHash, hlen]
  rw [hperm.foldl_eq]

theorem speccedHash_congr {a b : Obj} (ha : KeyWF a) (hb : KeyWF b)
    (h : keyBeq a b = true) : speccedHash a = speccedHash b := by
  simp only [keyBeq, Bool.and_eq_true] at h
  obtain ⟨⟨h1, h2⟩, h3⟩ := h
  have e : a.tn = b.tn := by simpa using h1
  simp only [speccedHash, e, csHash_congr ha.1 hb.1 h2,
    fsetHashL_congr _ _ h3 ha.2 hb.2]

theorem nameOf_congr {a b : Obj} (ha : KeyWF a) (hb : KeyWF b)
    (h : keyBeq a b = true) : nameOf a = nameOf b := by
  have e : a.tn = b.tn := by
    simp only [keyBeq, Bool.and_eq_true] at h
    simpa using h.1.1
  simp only [nameOf, e, speccedHash_congr ha hb h]

theorem sentinelOf_congr {a b : Obj} (ha : KeyWF a) (hb : KeyWF b)
    (h : keyBeq a b = true) : sentinelOf a = sentinelOf b := by
  simp only [sentinelOf, speccedHash_congr ha hb h]

/-! ## Theorems: the traversal in its chained form -/

theorem allDefsList_eq_flatten (l : List Obj) :
    allDefsList l = (l.map allDefs).flatten := by
  induction l with
  | nil => rfl
  | cons x rest ih => simp [allDefsList, ih]

/-- Lemma `allDefs` equals the chained form of the source:
`itertools.chain(subs, *[all_defs(t) for t in subs])` over
`subs = others (if Wrapper) ++ deps (if Task)`. -/
theorem allDefs_flatten (o : Obj) :
    allDefs o = o.children ++ (o.children.map allDefs).flatten := by
  rcases o with ⟨tn, sp, L, ist, isw, d, c, a, os⟩
  simp only [allDefs, Obj.children, Obj.isWrapper, Obj.others, Obj.isTask, Obj.deps]
  rcases isw <;> rcases ist <;> simp [allDefsList_eq_flatten]

theorem children_sizeOf {c o : Obj} (h : c ∈ o.children) : sizeOf c < sizeOf o := by
  rcases o with ⟨tn, spec, labels, t, w, d, cr, ca, os⟩
  simp only [Obj.children, Obj.isWrapper, Obj.others, Obj.isTask, Obj.deps,
    List.mem_append] at h
  rcases h with h | h <;>
  · split at h
    · have := List.sizeOf_lt_of_mem h
      simp only [Obj.mk.sizeOf_spec]
      omega
    · simp at h

/-! ## Theorems: claim C1 -/

theorem objDedup_pairwise (l : List Obj) :
    (objDedup l).Pairwise (fun x y => keyBeq x y = false) := by
  induction l with
  | nil => exact List.Pairwise.nil
  | cons x t ih =>
      simp only [objDedup]
      rw [List.pairwise_cons]
      constructor
      · intro y hy
        have := (List.mem_filter.mp hy).2
        simpa using this
      · exact List.Pairwise.sublist (List.filter_sublist _) ih

theorem objDedup_any (l : List Obj) (a : Obj) :
    ((objDedup l).any fun t => keyBeq a t) = (l.any fun t => keyBeq a t) := by
  induction l with
  | nil => rfl
  | cons x t ih =>
      simp only [objDedup, List.any_cons]
      by_cases hax : keyBeq a x = true
      · simp [hax]
      · have hax' : keyBeq a x = false := by
          cases hb : keyBeq a x
          · rfl
          · exact absurd hb hax
        rw [hax']
        simp only [Bool.false_or]
        rw [← ih]
        cases hany : (objDedup t).any (fun z => keyBeq a z)
        · rw [List.any_eq_false] at hany ⊢
          intro z hz
          exact hany z (List.mem_of_mem_filter hz)
        · rw [List.any_eq_true] at hany ⊢
          rcases hany with ⟨z, hz, hza⟩
          refine ⟨z, List.mem_filter.mpr ⟨hz, ?_⟩, hza⟩
          simp only [Bool.not_eq_eq_eq_not, Bool.not_true]
          cases hxz : keyBeq x z
          · rfl
          · exfalso
            have : keyBeq a x = true := keyBeq_trans hza (keyBeq_symm hxz)
            rw [hax'] at this
            cases this

theorem countP_keyBeq_le_one : ∀ {l : List Obj},
    l.Pairwise (fun x y => keyBeq x y = false) →
    ∀ a : Obj, (l.countP fun t => keyBeq a t) ≤ 1 := by
  intro l
  induction l with
  | nil =>
      intro _ a
      simp
  | cons x t ih =>
      intro hp a
      have hpc := List.pairwise_cons.mp hp
      rw [List.countP_cons]
      by_cases hax : keyBeq a x = true
      · have hzero : (t.countP fun t => keyBeq a t) = 0 := by
          rw [List.countP_eq_zero]
          intro z hz hza
          have hxz : keyBeq x z = true :=
            keyBeq_trans (keyBeq_symm hax) hza
          have := hpc.1 z hz
          rw [hxz] at this
          cases this
        simp [hzero, hax]
      · have hax' : keyBeq a x = false := by
          cases hb : keyBeq a x
          · rfl
          · exact absurd hb hax
        have := ih hpc.2 a
        simp [hax']
        omega

/-- C1 (amended).  Semantically identical instances — equal type name,
equal canonical argument map, equal label set (with the ordered dicts
duplicate-free, as any Python dict is) — receive equal generated names,
and sorting the deduplicated closure of a script graph that contains both
yields exactly one chunk of that identity, hence one declaration group
under that name.  The original claim's converse (semantically distinct
instances never share a name) is false on the code; see the
counterexample. -/
theorem claim_C1 (a b : Obj) (ha : KeyWF a) (hb : KeyWF b)
    (h : keyBeq a b = true) :
    nameOf a = nameOf b ∧
    ∀ e : Obj,
      ((e :: allDefs e).any fun t => keyBeq a t) = true →
      ((e :: allDefs e).any fun t => keyBeq b t) = true →
      ((sortedTasks e).countP fun t => keyBeq a t) = 1 := by
  refine ⟨nameOf_congr ha hb h, ?_⟩
  intro e hae _
  have hperm : (sortedTasks e).Perm (scriptTasks e) :=
    List.perm_insertionSort _ _
  rw [hperm.countP_eq]
  have hle := countP_keyBeq_le_one (objDedup_pairwise (e :: allDefs e)) a
  have hpos : 0 < ((scriptTasks e).countP fun t => keyBeq a t) := by
    rw [List.countP_pos_iff]
    have hany : ((objDedup (e :: allDefs e)).any fun t => keyBeq a t) = true := by
      rw [objDedup_any]
      exact hae
    rw [List.any_eq_true] at hany
    exact hany
  have hle' : ((scriptTasks e).countP fun t => keyBeq a t) ≤ 1 := hle
  omega

/-- C1 counterexample: `T(x=(1,2))` and `T(x=[1,2])` are semantically
distinct (their argument maps differ: Python `(1,2) == [1,2]` is false),
yet their generated names are identical, because `CallSpec.__hash__`
feeds `json.dumps` output to the string hash and JSON serializes a tuple
and a list identically. -/
theorem claim_C1_counterexample :
    csEqB exTupleArg.spec exListArg.spec = false ∧
    keyBeq exTupleArg exListArg = false ∧
    nameOf exTupleArg = nameOf exListArg := by
  refine ⟨by decide, by decide, by decide⟩

theorem claim_C1_witness :
    KeyWF exA ∧ KeyWF exB ∧ keyBeq exA exB = true ∧
    ((exE :: allDefs exE).any fun t => keyBeq exA t) = true ∧
    ((exE :: allDefs exE).any fun t => keyBeq exB t) = true ∧
    nameOf exA = nameOf exB ∧
    ((sortedTasks exE).countP fun t => keyBeq exA t) = 1 := by
  refine ⟨by decide, by decide, by decide, by decide, by decide, ?_, ?_⟩
  · exact (claim_C1 exA exB (by decide) (by decide) (by decide)).1
  · exact (claim_C1 exA exB (by decide) (by decide) (by decide)).2 exE
      (by decide) (by decide)

/-! ## Theorems: claim C8 (determinism / order-insensitivity) -/

theorem SpecWF_of_perm {a b : CallSpec} (h : a.Perm b) (ha : SpecWF a) :
    SpecWF b := ((h.map Prod.fst).nodup_iff).mp ha

theorem csContains_of_perm {a b : CallSpec} (h : a.Perm b) (k : String) :
    csContains a k = csContains b k := by
  cases hb : csContains b k
  · cases hc : csContains a k
    · rfl
    · rcases csContains_iff.mp hc with ⟨p, hp, hk⟩
      have : csContains b k = true := csContains_iff.mpr ⟨p, h.subset hp, hk⟩
      rw [hb] at this
      cases this
  · rcases csContains_iff.mp hb with ⟨p, hp, hk⟩
    exact csContains_iff.mpr ⟨p, h.symm.subset hp, hk⟩

theorem csGet_of_perm {a b : CallSpec} (h : a.Perm b) (ha : SpecWF a)
    (k : String) : csGet a k = csGet b k := by
  have hb := SpecWF_of_perm h ha
  rcases hg : csGet a k with _ | v
  · rcases hg' : csGet b k with _ | w
    · rfl
    · have hw : (k, w) ∈ b := (mem_iff_csGet hb).mpr hg'
      have : csGet a k = some w := (mem_iff_csGet ha).mp (h.symm.subset hw)
      rw [hg] at this
      cases this
  · have hv : (k, v) ∈ a := (mem_iff_csGet ha).mpr hg
    exact ((mem_iff_csGet hb).mp (h.subset hv)).symm

theorem csEqB_of_perm {a b : CallSpec} (h : a.Perm b) (ha : SpecWF a) :
    csEqB a b = true := by
  rw [csEqB_iff_both]
  constructor
  · rw [csLeB_iff_spec]
    refine ⟨fun k hk => ?_, fun k _ _ => csGet_of_perm h ha k⟩
    rw [← csContains_of_perm h k]
    exact hk
  · rw [csLeB_iff_spec]
    refine ⟨fun k hk => ?_, fun k _ _ => (csGet_of_perm h ha k).symm⟩
    rw [csContains_of_perm h k]
    exact hk

theorem labelMem_of_perm {A B : List Label} (h : A.Perm B) (l : Label) :
    labelMem A l = labelMem B l := by
  cases hb : labelMem B l
  · cases hc : labelMem A l
    · rfl
    · simp only [labelMem, List.any_eq_true] at hc
      rcases hc with ⟨x, hx, hbeq⟩
      have : labelMem B l = true := by
        simp only [labelMem, List.any_eq_true]
        exact ⟨x, h.subset hx, hbeq⟩
      rw [hb] at this
      cases this
  · simp only [labelMem, List.any_eq_true] at hb ⊢
    rcases hb with ⟨x, hx, hbeq⟩
    exact ⟨x, h.symm.subset hx, hbeq⟩

theorem labelSetEq_of_perm {A B : List Label} (h : A.Perm B) :
    labelSetEq A B = true := by
  simp only [labelSetEq, Bool.and_eq_true, List.all_eq_true]
  constructor
  · intro l hl
    rw [← labelMem_of_perm h]
    exact labelMem_mono hl
  · intro l hl
    rw [labelMem_of_perm h]
    exact labelMem_mono hl

theorem keyBeq_left_congr {a b : Obj} (h : keyBeq a b = true) (c : Obj) :
    keyBeq a c = keyBeq b c := by
  cases hb : keyBeq b c
  · cases hc : keyBeq a c
    · rfl
    · have : keyBeq b c = true := keyBeq_trans (keyBeq_symm h) hc
      rw [hb] at this
      cases this
  · exact keyBeq_trans h hb

theorem mapM_congr_of_map_eq {α β : Type} {f : α → Except Err β} :
    ∀ {l1 l2 : List α}, l1.map f = l2.map f → l1.mapM f = l2.mapM f := by
  intro l1
  induction l1 with
  | nil =>
      intro l2 h
      cases l2 with
      | nil => rfl
      | cons y t => simp at h
  | cons x t ih =>
      intro l2 h
      cases l2 with
      | nil => simp at h
      | cons y s =>
          simp only [List.map_cons, List.cons.injEq] at h
          simp only [List.mapM_cons, h.1, ih h.2]

theorem declsOf_congr {o1 o2 : Obj}
    (htn : o1.tn = o2.tn) (hT : o1.isTask = o2.isTask)
    (hW : o1.isWrapper = o2.isWrapper) (hd : o1.deps = o2.deps)
    (hc : o1.codeRet = o2.codeRet) (hca : o1.callArgs = o2.callArgs)
    (hos : o1.others = o2.others) (hh : speccedHash o1 = speccedHash o2) :
    declsOf o1 = declsOf o2 ∧ callOf o1 = callOf o2 := by
  have hname : nameOf o1 = nameOf o2 := by
    simp only [nameOf, htn, hh]
  have hsent : sentinelOf o1 = sentinelOf o2 := by
    simp only [sentinelOf, hh]
  have hcall : callOf o1 = callOf o2 := by
    simp only [callOf, hca, hname]
  have hinner : innerName o1 = innerName o2 := by
    simp only [innerName, hname]
  have hpre : preName o1 = preName o2 := by
    simp only [preName, hname]
  have hcheck : checkStr o1 = checkStr o2 := by
    simp only [checkStr, hsent]
  have htc : taskCode o1 = taskCode o2 := by
    simp only [taskCode, hc]
  have hpb : plainBody o1 = plainBody o2 := by
    simp only [plainBody, hc]
  have hbody : bodyOf o1 = bodyOf o2 := by
    simp only [bodyOf, hT, hW, htc, hpb, hcheck, hd, hpre, hinner]
  have hid : innerDecl o1 = innerDecl o2 := by
    have hoc : o1.others.map (fun t => "  " ++ callOf t) =
        o2.others.map (fun t => "  " ++ callOf t) := by rw [hos]
    simp only [innerDecl, hinner, hoc]
  have hpd : preDecl o1 = preDecl o2 := by
    have hdc : o1.deps.map (fun t => "  " ++ callOf t) =
        o2.deps.map (fun t => "  " ++ callOf t) := by rw [hd]
    simp only [preDecl, hpre, hdc]
  refine ⟨?_, hcall⟩
  simp only [declsOf, hbody, hname, hT, hW, hd, hid, hpd]

theorem script_congr {o1 o2 : Obj}
    (htn : o1.tn = o2.tn) (hT : o1.isTask = o2.isTask)
    (hW : o1.isWrapper = o2.isWrapper) (hd : o1.deps = o2.deps)
    (hc : o1.codeRet = o2.codeRet) (hca : o1.callArgs = o2.callArgs)
    (hos : o1.others = o2.others) (hh : speccedHash o1 = speccedHash o2)
    (hkey : keyBeq o1 o2 = true) :
    ∀ v dbg : Bool, ∀ loc : String,
      scriptOf o1 v dbg loc = scriptOf o2 v dbg loc := by
  obtain ⟨hdecl, hcall⟩ := declsOf_congr htn hT hW hd hc hca hos hh
  have hname : nameOf o1 = nameOf o2 := by
    simp only [nameOf, htn, hh]
  have hchild : o1.children = o2.children := by
    simp only [Obj.children, hW, hT, hd, hos]
  have hallDefs : allDefs o1 = allDefs o2 := by
    rw [allDefs_flatten, allDefs_flatten, hchild]
  have hfilters : (objDedup (allDefs o1)).filter (fun y => !(keyBeq o1 y)) =
      (objDedup (allDefs o2)).filter (fun y => !(keyBeq o2 y)) := by
    rw [← hallDefs]
    have he : (fun y => !(keyBeq o1 y)) = (fun y => !(keyBeq o2 y)) :=
      funext fun y => by rw [keyBeq_left_congr hkey y]
    rw [he]
  have hsk : sortKeyOf o1 = sortKeyOf o2 := by
    simp only [sortKeyOf, hname]
  have hrel : ∀ y, sortRel o1 y ↔ sortRel o2 y := by
    intro y
    simp only [sortRel, hsk]
  have hmapOI : ∀ S : List Obj,
      (List.orderedInsert sortRel o1 S).map declsOf =
      (List.orderedInsert sortRel o2 S).map declsOf := by
    intro S
    induction S with
    | nil => simp [List.orderedInsert, hdecl]
    | cons y s ih =>
        simp only [List.orderedInsert]
        by_cases hcnd : sortRel o1 y
        · rw [if_pos hcnd, if_pos ((hrel y).mp hcnd)]
          simp only [List.map_cons, hdecl]
        · rw [if_neg hcnd, if_neg (fun hx => hcnd ((hrel y).mpr hx))]
          simp only [List.map_cons, ih]
  intro v dbg loc
  have hsorted1 : sortedTasks o1 =
      List.orderedInsert sortRel o1
        (List.insertionSort sortRel
          ((objDedup (allDefs o1)).filter (fun y => !(keyBeq o1 y)))) := rfl
  have hsorted2 : sortedTasks o2 =
      List.orderedInsert sortRel o2
        (List.insertionSort sortRel
          ((objDedup (allDefs o2)).filter (fun y => !(keyBeq o2 y)))) := rfl
  rw [hfilters] at hsorted1
  simp only [scriptOf, hsorted1, hsorted2, hcall]
  rw [mapM_congr_of_map_eq (hmapOI _)]

/-- C8.  Determinism and order-insensitivity of the identity digest: the
hash used in generated names and sentinels is computed from the type
name, the key-sorted JSON serialization of the argument map, and the
label set — not from insertion order or runtime object identity.  Two
roots differing only by a permutation of their (duplicate-free) argument
map and of their label list have equal serializations, hashes, names and
sentinels, and assembling them produces byte-identical script text. -/
theorem claim_C8 (tn : String) (spec1 spec2 : CallSpec) (L1 L2 : List Label)
    (ist isw : Bool) (d : List Obj) (c : CodeVal) (ca : Option (List String))
    (os : List Obj) (hsp : spec1.Perm spec2) (hnd : SpecWF spec1)
    (hLp : L1.Perm L2) (hw1 : ∀ l ∈ L1, LabelWF l) :
    csDump spec1 = csDump spec2 ∧
    speccedHash (Obj.mk tn spec1 L1 ist isw d c ca os) =
      speccedHash (Obj.mk tn spec2 L2 ist isw d c ca os) ∧
    nameOf (Obj.mk tn spec1 L1 ist isw d c ca os) =
      nameOf (Obj.mk tn spec2 L2 ist isw d c ca os) ∧
    sentinelOf (Obj.mk tn spec1 L1 ist isw d c ca os) =
      sentinelOf (Obj.mk tn spec2 L2 ist isw d c ca os) ∧
    ∀ v dbg : Bool, ∀ loc : String,
      scriptOf (Obj.mk tn spec1 L1 ist isw d c ca os) v dbg loc =
        scriptOf (Obj.mk tn spec2 L2 ist isw d c ca os) v dbg loc := by
  have hcseq : csEqB spec1 spec2 = true := csEqB_of_perm hsp hnd
  have hnd2 : SpecWF spec2 := SpecWF_of_perm hsp hnd
  have hw2 : ∀ l ∈ L2, LabelWF l := fun l hl => hw1 l (hLp.symm.subset hl)
  have hsetEq : labelSetEq L1 L2 = true := labelSetEq_of_perm hLp
  have hkey : keyBeq (Obj.mk tn spec1 L1 ist isw d c ca os)
      (Obj.mk tn spec2 L2 ist isw d c ca os) = true := by
    simp only [keyBeq, Obj.tn, Obj.spec, Obj.labels]
    rw [Bool.and_eq_true, Bool.and_eq_true]
    exact ⟨⟨by simp, hcseq⟩, hsetEq⟩
  have hKW1 : KeyWF (Obj.mk tn spec1 L1 ist isw d c ca os) := ⟨hnd, hw1⟩
  have hKW2 : KeyWF (Obj.mk tn spec2 L2 ist isw d c ca os) := ⟨hnd2, hw2⟩
  have hh := speccedHash_congr hKW1 hKW2 hkey
  refine ⟨csDump_congr hnd hnd2 hcseq, hh, nameOf_congr hKW1 hKW2 hkey,
    sentinelOf_congr hKW1 hKW2 hkey, ?_⟩
  exact script_congr rfl rfl rfl rfl rfl rfl rfl hh hkey

theorem claim_C8_witness :
    ([("x", PyVal.vint 1), ("y", PyVal.vint 2)] : CallSpec).Perm
      [("y", PyVal.vint 2), ("x", PyVal.vint 1)] ∧
    SpecWF ([("x", PyVal.vint 1), ("y", PyVal.vint 2)] : CallSpec) ∧
    csDump [("x", PyVal.vint 1), ("y", PyVal.vint 2)] =
      csDump [("y", PyVal.vint 2), ("x", PyVal.vint 1)] ∧
    nameOf exA = nameOf exB ∧
    scriptOf exA false false "C" = scriptOf exB false false "C" := by
  have hp : ([("x", PyVal.vint 1), ("y", PyVal.vint 2)] : CallSpec).Perm
      [("y", PyVal.vint 2), ("x", PyVal.vint 1)] := List.Perm.swap _ _ _
  have h := claim_C8 "T" [("x", PyVal.vint 1), ("y", PyVal.vint 2)]
    [("y", PyVal.vint 2), ("x", PyVal.vint 1)] [] [] true false []
    (CodeVal.list []) none [] hp (by decide) (List.Perm.refl _)
    (fun l hl => absurd hl (List.not_mem_nil l))
  exact ⟨hp, by decide, h.1, h.2.2.1, h.2.2.2.2 false false "C"⟩

theorem claim_C7_witness :
    callSpecInit ⟨["a", "b"], none, none⟩ [PyVal.vint 1] [("b", PyVal.vint 2)] =
      .ok (odFromList (List.zip ["a", "b"] [PyVal.vint 1] ++
        ["a", "b"].filterMap
          (fun n => (kwGet [("b", PyVal.vint 2)] n).map (fun v => (n, v))))) ∧
    isErr (callSpecInit ⟨["a"], none, none⟩ [PyVal.vint 1, PyVal.vint 2] []) = true := by
  constructor
  · exact ((claim_C7 ⟨["a", "b"], none, none⟩ [PyVal.vint 1]
      [("b", PyVal.vint 2)]).2.2 (by decide) (by decide)).1
  · exact (claim_C7 ⟨["a"], none, none⟩ [PyVal.vint 1, PyVal.vint 2] []).1.mpr
      (Or.inl ⟨by decide, rfl⟩)

/-! ## Theorems: accepted code shapes (C9) -/

theorem isErr_map {α β : Type} (f : α → β) (e : Except Err α) :
    isErr (e.map f) = isErr e := by
  cases e <;> rfl

/-- C9 counterexample to the literal claim: a tuple is an ordered
sequence of valid items, yet `Task.body` computes
`checks + [trampoline] + code` and Python cannot concatenate a `list`
with a `tuple`, so a task whose `code()` returns a tuple raises
`TypeError` rather than being accepted; the error propagates through
`decls` into `script`. -/
theorem claim_C9_counterexample :
    (∀ i ∈ [Item.text ": # ok"], Item.truthy i = true) ∧
    exTupleCode.codeRet = CodeVal.tuple [Item.text ": # ok"] ∧
    isErr (bodyOf exTupleCode) = true ∧
    isErr (scriptOf exTupleCode false false "C") = true := by
  refine ⟨by decide, rfl, by decide, by decide⟩

/-- C9 (amended).  Accepted code shapes and the errors outside them: for
a task, `code()` returning a bare string or `Raw` item is treated as a
one-element sequence and a list passes through unchanged, while a
non-sequence return raises (`TypeError` at the list concatenation) — and
so does a tuple, although it is an ordered sequence of valid items
(Python cannot concatenate `list` and `tuple`, so the accepted sequence
shape is exactly `list`); for a wrapper's member collection, flattening
raises exactly when some argument is neither a `Bash` object nor an
iterable, and propagation raises exactly when some collected member is
not a `Bash` object. -/
theorem claim_C9 (o w : Obj) (args : List MemberArg) :
    (o.isTask = true → o.codeRet = CodeVal.other → isErr (bodyOf o) = true) ∧
    (o.isTask = true → ∀ l, o.codeRet = CodeVal.tuple l →
      isErr (bodyOf o) = true) ∧
    (o.isTask = true → ∀ i, o.codeRet = CodeVal.single i →
      bodyOf o = Except.ok [Item.text (checkStr o),
        if o.deps.isEmpty then Item.nil else Item.text (preName o), i]) ∧
    (o.isTask = true → ∀ l, o.codeRet = CodeVal.list l →
      bodyOf o = Except.ok (Item.text (checkStr o) ::
        (if o.deps.isEmpty then Item.nil else Item.text (preName o)) :: l)) ∧
    (isErr (flattenMembers args) = true ↔ MemberArg.notIter ∈ args) ∧
    (∀ (wl : List Label) (ms : List MemberItem),
      isErr (propagate w wl ms) = true ↔ MemberItem.bad ∈ ms) := by
  refine ⟨?_, ?_, ?_, ?_, ?_, ?_⟩
  · intro ht hc
    simp [bodyOf, ht, taskCode, hc, isErr, Except.map]
  · intro ht l hc
    simp [bodyOf, ht, taskCode, hc, isErr, Except.map]
  · intro ht i hc
    simp [bodyOf, ht, taskCode, hc, Except.map]
  · intro ht l hc
    simp [bodyOf, ht, taskCode, hc, Except.map]
  · induction args with
    | nil => simp [flattenMembers, isErr]
    | cons a rest ih =>
        cases a with
        | obj x => simpa [flattenMembers, isErr_map] using ih
        | coll items => simpa [flattenMembers, isErr_map] using ih
        | notIter => simp [flattenMembers, isErr]
  · intro wl ms
    induction ms generalizing wl with
    | nil => simp [propagate, isErr]
    | cons m rest ih =>
        cases m with
        | good x => simpa [propagate, isErr_map] using ih _
        | bad => simp [propagate, isErr]

theorem claim_C9_witness :
    bodyOf exSingleCode = Except.ok [Item.text (checkStr exSingleCode),
      if exSingleCode.deps.isEmpty then Item.nil
      else Item.text (preName exSingleCode), Item.text "touch /tmp/s"] ∧
    isErr (bodyOf exTupleCode) = true ∧
    isErr (flattenMembers [MemberArg.obj exM, MemberArg.notIter]) = true ∧
    isErr (propagate exW exW.labels
      [MemberItem.good exM, MemberItem.bad]) = true := by
  refine ⟨(claim_C9 exSingleCode exW []).2.2.1 rfl (Item.text "touch /tmp/s") rfl,
    (claim_C9 exTupleCode exW []).2.1 rfl [Item.text ": # ok"] rfl,
    ((claim_C9 exM exW [MemberArg.obj exM, MemberArg.notIter]).2.2.2.2.1).mpr
      (by simp),
    ((claim_C9 exM exW []).2.2.2.2.2 exW.labels
      [MemberItem.good exM, MemberItem.bad]).mpr (by simp)⟩

/-! ## Theorems: guard-first task bodies (C4) -/

theorem strData_append (a b : String) : (a ++ b).data = a.data ++ b.data := rfl

theorem strEta (s : String) : String.mk s.data = s := by
  cases s
  rfl

theorem strExt {a b : String} (h : a.data = b.data) : a = b := by
  cases a
  cases b
  cases h
  rfl

/-- C4.  Guard-first task bodies: whenever `Task.body` succeeds, its
first item is the idempotency check of `ButOnce.checks` (whose sentinel
is derived from the identity hash), the second slot is the `pre`
dependency trampoline exactly when `deps()` is non-empty (and the falsy
`None` placeholder otherwise), and everything of the task's own code
comes after; the guard is also the first item that survives the falsy
filter of `Bash.decls`, so it renders before any dependency invocation
and before all code. -/
theorem claim_C4 (o : Obj) (ho : o.isTask = true) (items : List Item)
    (hb : bodyOf o = Except.ok items) :
    items.head? = some (Item.text (checkStr o)) ∧
    checkStr o = "\n            [[ $\x7b" ++ sentinelOf o ++
      "+_\x7d ]] && return || " ++ sentinelOf o ++ "=_ # only once\n        " ∧
    sentinelOf o = "_" ++ hex16 (absHash (speccedHash o)) ∧
    (o.deps.isEmpty = false ↔
      items.tail.head? = some (Item.text (preName o))) ∧
    (o.deps.isEmpty = true → items.tail.head? = some Item.nil) ∧
    (∃ code, taskCode o = Except.ok code ∧
      items = Item.text (checkStr o) ::
        (if o.deps.isEmpty then Item.nil else Item.text (preName o)) :: code) ∧
    (items.filter Item.truthy).head? = some (Item.text (checkStr o)) := by
  rw [bodyOf, ho] at hb
  rw [if_pos rfl] at hb
  rcases hc : taskCode o with e | code
  · rw [hc] at hb
    cases hb
  · rw [hc] at hb
    simp only [Except.map, Except.ok.injEq] at hb
    subst hb
    have htr : Item.truthy (Item.text (checkStr o)) = true := rfl
    refine ⟨rfl, rfl, rfl, ?_, ?_, ⟨code, rfl, rfl⟩, ?_⟩
    · constructor
      · intro hd
        simp [hd]
      · intro hh
        cases hd : o.deps.isEmpty
        · rfl
        · rw [hd] at hh
          simp only [if_pos rfl, List.tail_cons, List.head?_cons,
            Option.some.injEq] at hh
          cases hh
    · intro hd
      simp [hd]
    · simp [List.filter_cons, htr]

theorem claim_C4_witness :
    exSingleCode.isTask = true ∧
    bodyOf exSingleCode = Except.ok [Item.text (checkStr exSingleCode),
      Item.nil, Item.text "touch /tmp/s"] ∧
    ([Item.text (checkStr exSingleCode), Item.nil,
        Item.text "touch /tmp/s"].head? =
      some (Item.text (checkStr exSingleCode)) ∧
    checkStr exSingleCode = "\n            [[ $\x7b" ++
      sentinelOf exSingleCode ++ "+_\x7d ]] && return || " ++
      sentinelOf exSingleCode ++ "=_ # only once\n        " ∧
    sentinelOf exSingleCode = "_" ++
      hex16 (absHash (speccedHash exSingleCode)) ∧
    (exSingleCode.deps.isEmpty = false ↔
      [Item.text (checkStr exSingleCode), Item.nil,
        Item.text "touch /tmp/s"].tail.head? =
      some (Item.text (preName exSingleCode))) ∧
    (exSingleCode.deps.isEmpty = true →
      [Item.text (checkStr exSingleCode), Item.nil,
        Item.text "touch /tmp/s"].tail.head? = some Item.nil) ∧
    (∃ code, taskCode exSingleCode = Except.ok code ∧
      [Item.text (checkStr exSingleCode), Item.nil,
        Item.text "touch /tmp/s"] = Item.text (checkStr exSingleCode) ::
        (if exSingleCode.deps.isEmpty then Item.nil
         else Item.text (preName exSingleCode)) :: code) ∧
    ([Item.text (checkStr exSingleCode), Item.nil,
        Item.text "touch /tmp/s"].filter Item.truthy).head? =
      some (Item.text (checkStr exSingleCode))) :=
  ⟨rfl, rfl, claim_C4 exSingleCode rfl
    [Item.text (checkStr exSingleCode), Item.nil, Item.text "touch /tmp/s"]
    rfl⟩

/-! ## Theorems: wrapper composition and label propagation (C6) -/

theorem withLabels_tn (o : Obj) (L : List Label) :
    (o.withLabels L).tn = o.tn := by
  cases o
  rfl

theorem withLabels_spec (o : Obj) (L : List Label) :
    (o.withLabels L).spec = o.spec := by
  cases o
  rfl

theorem withLabels_labels (o : Obj) (L : List Label) :
    (o.withLabels L).labels = L := by
  cases o
  rfl

theorem withLabels_isTask (o : Obj) (L : List Label) :
    (o.withLabels L).isTask = o.isTask := by
  cases o
  rfl

theorem withLabels_isWrapper (o : Obj) (L : List Label) :
    (o.withLabels L).isWrapper = o.isWrapper := by
  cases o
  rfl

theorem withLabels_deps (o : Obj) (L : List Label) :
    (o.withLabels L).deps = o.deps := by
  cases o
  rfl

theorem withOthers_tn (o : Obj) (os : List Obj) :
    (o.withOthers os).tn = o.tn := by
  cases o
  rfl

theorem withOthers_spec (o : Obj) (os : List Obj) :
    (o.withOthers os).spec = o.spec := by
  cases o
  rfl

theorem withOthers_labels (o : Obj) (os : List Obj) :
    (o.withOthers os).labels = o.labels := by
  cases o
  rfl

theorem withOthers_isTask (o : Obj) (os : List Obj) :
    (o.withOthers os).isTask = o.isTask := by
  cases o
  rfl

theorem withOthers_isWrapper (o : Obj) (os : List Obj) :
    (o.withOthers os).isWrapper = o.isWrapper := by
  cases o
  rfl

theorem withOthers_deps (o : Obj) (os : List Obj) :
    (o.withOthers os).deps = o.deps := by
  cases o
  rfl

theorem withOthers_others (o : Obj) (os : List Obj) :
    (o.withOthers os).others = os := by
  cases o
  rfl

theorem labelMem_insert (L : List Label) (b l : Label) :
    labelMem (labelInsert L b) l = (labelMem L l || labelBeq b l) := by
  unfold labelInsert
  by_cases hb : labelMem L b = true
  · rw [if_pos hb]
    cases hbl : labelBeq b l
    · simp
    · have : labelMem L l = true := labelMem_of_beq hb hbl
      simp [this]
  · rw [if_neg hb]
    simp [labelMem, List.any_append]

theorem labelMem_union (A B : List Label) (l : Label) :
    labelMem (labelUnion A B) l = (labelMem A l || labelMem B l) := by
  induction B generalizing A with
  | nil => simp [labelUnion, labelMem]
  | cons b B ih =>
      have h1 : labelUnion A (b :: B) = labelUnion (labelInsert A b) B := rfl
      rw [h1, ih, labelMem_insert]
      simp [labelMem, List.any_cons, Bool.or_assoc]

theorem flattenMembers_objs (ts : List Obj) :
    flattenMembers (ts.map MemberArg.obj) = Except.ok (ts.map MemberItem.good) := by
  induction ts with
  | nil => rfl
  | cons t ts ih => simp [flattenMembers, ih, Except.map]

theorem propagate_ok (w : Obj) : ∀ (wl : List Label) (ts : List Obj),
    propagate w wl (ts.map MemberItem.good) = Except.ok
      (ts.foldl (fun acc t =>
        labelUnion (labelUnion acc [Label.lpair t.tn t.spec]) t.labels) wl,
       ts.map (fun t => t.withLabels (labelUnion t.labels (wrapEntries w)))) := by
  intro wl ts
  induction ts generalizing wl with
  | nil => rfl
  | cons t ts ih => simp [propagate, ih, Except.map]

theorem foldl_union_mem (l : Label) : ∀ (ts : List Obj) (wl : List Label),
    labelMem (ts.foldl (fun acc t =>
        labelUnion (labelUnion acc [Label.lpair t.tn t.spec]) t.labels) wl) l
      = (labelMem wl l ||
          ts.any (fun t => labelBeq (Label.lpair t.tn t.spec) l ||
            labelMem t.labels l)) := by
  intro ts
  induction ts with
  | nil =>
      intro wl
      simp [labelMem]
  | cons t ts ih =>
      intro wl
      rw [List.foldl_cons, ih, labelMem_union, labelMem_union]
      simp [labelMem, List.any_cons, Bool.or_assoc]

/-- C6.  Wrapper composition propagates labels bidirectionally, exactly
once, at composition time: calling a wrapper on a list of members yields
a wrapper whose stored members each carry their old labels plus exactly
the wrapper's two callspec entries (type name and argument map) — so
each member now tests positive for the wrapper's entries — and whose own
label set is its old one plus exactly each member's `(typename, spec)`
pair and pre-existing labels; all other attributes are unchanged, and a
member whose labels did not already contain the wrapper's type-name
entry compares unequal (by Python `==` on identity keys) to its
pre-composition self, so identity comparison distinguishes wrapped from
unwrapped.  Rendering functions take the composed objects as arguments
and build strings only, so no rendering step applies the propagation
again. -/
theorem claim_C6 (w : Obj) (ts : List Obj) :
    ∃ w2 : Obj, wrapperCall w (ts.map MemberArg.obj) = Except.ok w2 ∧
      w2.tn = w.tn ∧ w2.spec = w.spec ∧ w2.isTask = w.isTask ∧
      w2.isWrapper = w.isWrapper ∧ w2.deps = w.deps ∧
      w2.others = ts.map (fun t =>
        t.withLabels (labelUnion t.labels (wrapEntries w))) ∧
      (∀ t ∈ w2.others, labelMem t.labels (Label.lstr w.tn) = true ∧
        labelMem t.labels (Label.lspec w.spec) = true) ∧
      (∀ t ∈ ts, ∀ l, labelMem (labelUnion t.labels (wrapEntries w)) l =
        (labelMem t.labels l || labelBeq (Label.lstr w.tn) l ||
          labelBeq (Label.lspec w.spec) l)) ∧
      (∀ l, labelMem w2.labels l =
        (labelMem w.labels l || ts.any (fun t =>
          labelBeq (Label.lpair t.tn t.spec) l || labelMem t.labels l))) ∧
      (∀ t ∈ ts, labelMem t.labels (Label.lstr w.tn) = false →
        keyBeq (t.withLabels (labelUnion t.labels (wrapEntries w))) t
          = false) := by
  refine ⟨(w.withLabels (ts.foldl (fun acc t =>
      labelUnion (labelUnion acc [Label.lpair t.tn t.spec]) t.labels)
        w.labels)).withOthers (ts.map (fun t =>
      t.withLabels (labelUnion t.labels (wrapEntries w)))), ?_, ?_, ?_, ?_,
    ?_, ?_, ?_, ?_, ?_, ?_, ?_⟩
  · rw [wrapperCall, flattenMembers_objs]
    show (Except.ok (ts.map MemberItem.good) >>= fun chained =>
      propagate w w.labels chained >>= _) = _
    rw [show (Except.ok (ts.map MemberItem.good) >>= fun chained =>
        propagate w w.labels chained >>=
          (fun r => pure ((w.withLabels r.1).withOthers r.2))) =
      (propagate w w.labels (ts.map MemberItem.good) >>=
        (fun r => pure ((w.withLabels r.1).withOthers r.2))) from rfl]
    rw [propagate_ok]
    rfl
  · rw [withOthers_tn, withLabels_tn]
  · rw [withOthers_spec, withLabels_spec]
  · rw [withOthers_isTask, withLabels_isTask]
  · rw [withOthers_isWrapper, withLabels_isWrapper]
  · rw [withOthers_deps, withLabels_deps]
  · rw [withOthers_others]
  · intro t ht
    rw [withOthers_others] at ht
    rcases List.mem_map.mp ht with ⟨t0, _, rfl⟩
    rw [withLabels_labels, labelMem_union, labelMem_union]
    constructor
    · have : labelMem (wrapEntries w) (Label.lstr w.tn) = true := by
        simp [wrapEntries, labelMem, labelBeq_refl]
      simp [this]
    · have : labelMem (wrapEntries w) (Label.lspec w.spec) = true := by
        simp [wrapEntries, labelMem, labelBeq_refl]
      simp [this]
  · intro t _ l
    rw [labelMem_union]
    simp [wrapEntries, labelMem, List.any_cons, Bool.or_assoc]
  · intro l
    rw [withOthers_labels, withLabels_labels, foldl_union_mem]
  · intro t _ hno
    have hsetEq : labelSetEq (labelUnion t.labels (wrapEntries w)) t.labels
        = false := by
      cases hse : labelSetEq (labelUnion t.labels (wrapEntries w)) t.labels
      · rfl
      · exfalso
        have hm := labelSetEq_mem hse (Label.lstr w.tn)
        rw [labelMem_union, hno] at hm
        have : labelMem (wrapEntries w) (Label.lstr w.tn) = true := by
          simp [wrapEntries, labelMem, labelBeq_refl]
        rw [this] at hm
        simp at hm
    rw [keyBeq, withLabels_tn, withLabels_spec, withLabels_labels, hsetEq]
    simp

theorem claim_C6_witness :
    ∃ w2 : Obj, wrapperCall exW ([exM].map MemberArg.obj) = Except.ok w2 ∧
      labelMem w2.labels (Label.lpair exM.tn exM.spec) = true ∧
      (∀ t ∈ w2.others, labelMem t.labels (Label.lstr exW.tn) = true) ∧
      (∀ t ∈ w2.others, keyBeq t exM = false) ∧
      labelMem exM.labels (Label.lstr exW.tn) = false := by
  obtain ⟨w2, hok, -, -, -, -, -, hothers, -, -, hwl, hkey⟩ :=
    claim_C6 exW [exM]
  refine ⟨w2, hok, ?_, ?_, ?_, rfl⟩
  · rw [hwl (Label.lpair exM.tn exM.spec)]
    decide
  · intro t ht
    rw [hothers] at ht
    simp only [List.map_cons, List.map_nil, List.mem_singleton] at ht
    subst ht
    rw [withLabels_labels]
    decide
  · intro t ht
    rw [hothers] at ht
    simp only [List.map_cons, List.map_nil, List.mem_singleton] at ht
    subst ht
    exact hkey exM (List.mem_singleton.mpr rfl) rfl

/-! ## Theorems: the transitive closure `Task.subs` (C5) -/

theorem mem_allDefs_iff_reaches : ∀ (o x : Obj), x ∈ allDefs o ↔ Reaches o x := by
  have main : ∀ (n : Nat) (o x : Obj), sizeOf o ≤ n →
      (x ∈ allDefs o ↔ Reaches o x) := by
    intro n
    induction n with
    | zero =>
        intro o x h
        exfalso
        cases o
        simp at h
    | succ n ih =>
        intro o x hle
        rw [allDefs_flatten]
        constructor
        · intro hx
          rcases List.mem_append.mp hx with hc | hf
          · exact Reaches.child hc
          · rcases List.mem_flatten.mp hf with ⟨seg, hseg, hxseg⟩
            rcases List.mem_map.mp hseg with ⟨c, hc, rfl⟩
            have hsz : sizeOf c ≤ n := by
              have := children_sizeOf hc
              omega
            exact Reaches.step hc ((ih c x hsz).mp hxseg)
        · intro hr
          cases hr with
          | child hc => exact List.mem_append.mpr (Or.inl hc)
          | step hc hcd =>
              refine List.mem_append.mpr (Or.inr (List.mem_flatten.mpr ?_))
              rename_i c
              have hsz : sizeOf c ≤ n := by
                have := children_sizeOf hc
                omega
              exact ⟨allDefs c, List.mem_map.mpr ⟨c, hc, rfl⟩,
                (ih c x hsz).mpr hcd⟩
  intro o x
  exact main (sizeOf o) o x (Nat.le_refl _)

/-- C5.  `Task.subs` is the deduplicated transitive closure of the
traversal edges and never contains the instance itself in an acyclic
graph: membership in `all_defs` coincides with reachability along
`deps()` edges and, for wrappers, `others` edges; `subs` keeps exactly
one representative per identity key of `all_defs` (duplicate-safe, as a
set); and when no reachable instance is identity-equal to the instance
itself — acyclicity — `subs` contains nothing identity-equal to it. -/
theorem claim_C5 (o : Obj) :
    (∀ x : Obj, x ∈ allDefs o ↔ Reaches o x) ∧
    (∀ c : Obj, c ∈ o.children ↔
      ((o.isWrapper = true ∧ c ∈ o.others) ∨
        (o.isTask = true ∧ c ∈ o.deps))) ∧
    (∀ x : Obj, ((subsOf o).any fun t => keyBeq x t) =
      ((allDefs o).any fun t => keyBeq x t)) ∧
    (subsOf o).Pairwise (fun a b => keyBeq a b = false) ∧
    (((allDefs o).all fun t => !keyBeq o t) = true →
      ((subsOf o).any fun t => keyBeq o t) = false) := by
  refine ⟨mem_allDefs_iff_reaches o, ?_, ?_, objDedup_pairwise _, ?_⟩
  · intro c
    cases hiw : o.isWrapper <;> cases hit : o.isTask <;>
      simp [Obj.children, hiw, hit]
  · intro x
    exact objDedup_any (allDefs o) x
  · intro hall
    have hfalse : ((allDefs o).any fun t => keyBeq o t) = false := by
      rw [List.any_eq_false]
      intro t ht
      have := List.all_eq_true.mp hall t ht
      simpa using this
    exact (objDedup_any (allDefs o) o).trans hfalse

theorem claim_C5_witness :
    (exD ∈ allDefs exRoot ↔ Reaches exRoot exD) ∧
    Reaches exRoot exD ∧
    ((allDefs exRoot).all fun t => !keyBeq exRoot t) = true ∧
    ((subsOf exRoot).any fun t => keyBeq exRoot t) = false ∧
    (subsOf exRoot).Pairwise (fun a b => keyBeq a b = false) := by
  have h := claim_C5 exRoot
  refine ⟨h.1 exD, (h.1 exD).mp ?_, by decide, h.2.2.2.2 (by decide),
    h.2.2.2.1⟩
  show exD ∈ ([exL, exR, exD, exD] : List Obj)
  simp

/-! ## Theorems: deterministic ordering and script structure (C3) -/

theorem compLt_strict : StrictCmp compLt := by
  constructor
  · intro a
    cases a with
    | cstr s => exact strLtB_strict.irrefl s
    | ctup l => exact (lexLt_strict strLtB_strict).irrefl l
  · intro a b c hab hbc
    cases a with
    | cstr sa =>
        cases c with
        | cstr sc =>
            cases b with
            | cstr sb => exact strLtB_strict.trans hab hbc
            | ctup lb => exact absurd hbc (by simp [compLt])
        | ctup lc => rfl
    | ctup la =>
        cases b with
        | cstr sb => exact absurd hab (by simp [compLt])
        | ctup lb =>
            cases c with
            | cstr sc => exact absurd hbc (by simp [compLt])
            | ctup lc => exact (lexLt_strict strLtB_strict).trans hab hbc
  · intro a b
    cases a with
    | cstr sa =>
        cases b with
        | cstr sb =>
            rcases strLtB_strict.tri sa sb with h | h | h
            · exact Or.inl h
            · exact Or.inr (Or.inl (by rw [h]))
            · exact Or.inr (Or.inr h)
        | ctup lb => exact Or.inl rfl
    | ctup la =>
        cases b with
        | cstr sb => exact Or.inr (Or.inr rfl)
        | ctup lb =>
            rcases (lexLt_strict strLtB_strict).tri la lb with h | h | h
            · exact Or.inl h
            · exact Or.inr (Or.inl (by rw [h]))
            · exact Or.inr (Or.inr h)

theorem sortRel_total : ∀ a b : Obj, sortRel a b ∨ sortRel b a := by
  intro a b
  exact (lexLt_strict compLt_strict).le_total (sortKeyOf a) (sortKeyOf b)

theorem sortRel_trans : ∀ a b c : Obj, sortRel a b → sortRel b c → sortRel a c := by
  intro a b c h1 h2
  exact (lexLt_strict compLt_strict).le_trans' h1 h2

theorem splitChar_ne_nil (c : Char) (l : List Char) : splitChar c l ≠ [] := by
  cases l with
  | nil => simp [splitChar]
  | cons x xs =>
      simp only [splitChar]
      cases h : splitChar c xs with
      | nil => simp
      | cons r rs => by_cases hx : x = c <;> simp [hx]

theorem splitChar_append (c : Char) (xs ys : List Char) :
    splitChar c (xs ++ c :: ys) = splitChar c xs ++ splitChar c ys := by
  induction xs with
  | nil =>
      simp only [List.nil_append, splitChar]
      cases h : splitChar c ys with
      | nil => exact absurd h (splitChar_ne_nil c ys)
      | cons r rs => simp
  | cons x xs ih =>
      simp only [List.cons_append, splitChar, List.append_eq]
      rw [ih]
      cases hx : splitChar c xs with
      | nil => exact absurd hx (splitChar_ne_nil c xs)
      | cons r rs =>
          by_cases hxc : x = c <;> simp [hxc]

theorem splitChar_no_sep (c : Char) : ∀ l : List Char,
    (l.all fun x => x != c) = true → splitChar c l = [l] := by
  intro l
  induction l with
  | nil => intro _; rfl
  | cons x xs ih =>
      intro h
      rw [List.all_cons, Bool.and_eq_true] at h
      have hx : ¬(x = c) := by simpa using h.1
      simp only [splitChar, ih h.2]
      simp [hx]

theorem scriptLines_tail (A call : String)
    (h : (call.data.all fun ch => ch != '\n') = true) :
    (scriptLines (A ++ "\n" ++ call ++ "\n")).reverse.head? = some "" ∧
    (scriptLines (A ++ "\n" ++ call ++ "\n")).reverse.tail.head? = some call := by
  have hd : (A ++ "\n" ++ call ++ "\n").data
      = A.data ++ '\n' :: (call.data ++ '\n' :: []) := by
    simp only [strData_append, List.append_assoc]
    rfl
  have hsplit : splitChar '\n' ((A ++ "\n" ++ call ++ "\n").data)
      = splitChar '\n' A.data ++ (call.data :: [[]]) := by
    rw [hd, splitChar_append, splitChar_append, splitChar_no_sep '\n' call.data h]
    rfl
  unfold scriptLines
  rw [hsplit]
  refine ⟨?_, ?_⟩ <;>
    simp [List.reverse_append, strEta]

/-- C3.  Script structure: whenever assembly succeeds, the script text
is exactly the interpreter line, the strict-mode option line, the locale
export, the declaration groups of the rendered chunk set joined by blank
lines, a trace-toggle line present exactly when debug is true, and the
entry call followed by a final newline; the rendered chunk set is a
permutation of the deduplicated `{entry} ∪ subs` (it covers, up to
identity equality, exactly the entry and its transitive closure), sorted
ascending by the hierarchical decomposition of names (split on `'.'`,
then on `"//"`); and when the call expression contains no newline, the
text of the last line before the trailing newline is exactly the entry
chunk's call expression. -/
theorem claim_C3 (o : Obj) (v dbg : Bool) (loc : String)
    (hok : isErr (scriptOf o v dbg loc) = false) :
    ∃ gs : List (List String),
      (sortedTasks o).mapM declsOf = Except.ok gs ∧
      scriptOf o v dbg loc = Except.ok
        ("#!/bin/bash\nset -o errexit -o nounset -o pipefail\n\nexport LC_ALL="
          ++ loc ++ "\n\n" ++ joinSep "\n\n" (gs.map (joinSep "\n")) ++
          "\n\n\n" ++ (if dbg then "set -o xtrace" else "") ++ "\n" ++
          callOf o ++ "\n") ∧
      (sortedTasks o).Perm (scriptTasks o) ∧
      (sortedTasks o).Sorted sortRel ∧
      (∀ x : Obj, ((sortedTasks o).any fun t => keyBeq x t) =
        (keyBeq x o || ((subsOf o).any fun t => keyBeq x t))) ∧
      (((callOf o).data.all fun ch => ch != '\n') = true →
        ∀ s : String, scriptOf o v dbg loc = Except.ok s →
          (scriptLines s).reverse.head? = some "" ∧
          (scriptLines s).reverse.tail.head? = some (callOf o)) := by
  rcases hm : (sortedTasks o).mapM declsOf with e | gs
  · exfalso
    have hbad : scriptOf o v dbg loc = Except.error e := by
      simp only [scriptOf, hm]
      rfl
    rw [hbad] at hok
    simp [isErr] at hok
  · have hEq : scriptOf o v dbg loc = Except.ok
        ("#!/bin/bash\nset -o errexit -o nounset -o pipefail\n\nexport LC_ALL="
          ++ loc ++ "\n\n" ++ joinSep "\n\n" (gs.map (joinSep "\n")) ++
          "\n\n\n" ++ (if dbg then "set -o xtrace" else "") ++ "\n" ++
          callOf o ++ "\n") := by
      simp only [scriptOf, hm]
      rfl
    refine ⟨gs, rfl, hEq, List.perm_insertionSort _ _, ?_, ?_, ?_⟩
    · haveI : IsTotal Obj sortRel := ⟨sortRel_total⟩
      haveI : IsTrans Obj sortRel := ⟨fun a b c => sortRel_trans a b c⟩
      exact List.sorted_insertionSort _ _
    · intro x
      have h1 : ((sortedTasks o).any fun t => keyBeq x t) =
          ((scriptTasks o).any fun t => keyBeq x t) := by
        cases hh : (scriptTasks o).any fun t => keyBeq x t
        · rw [List.any_eq_false] at hh ⊢
          intro t ht
          exact hh t ((List.perm_insertionSort sortRel (scriptTasks o)).subset ht)
        · rw [List.any_eq_true] at hh ⊢
          rcases hh with ⟨t, ht, hp⟩
          exact ⟨t,
            (List.perm_insertionSort sortRel (scriptTasks o)).symm.subset ht, hp⟩
      calc ((sortedTasks o).any fun t => keyBeq x t)
          = ((scriptTasks o).any fun t => keyBeq x t) := h1
        _ = ((o :: allDefs o).any fun t => keyBeq x t) :=
            objDedup_any (o :: allDefs o) x
        _ = (keyBeq x o || ((allDefs o).any fun t => keyBeq x t)) := by
            rw [List.any_cons]
        _ = (keyBeq x o || ((subsOf o).any fun t => keyBeq x t)) := by
            rw [show subsOf o = objDedup (allDefs o) from rfl,
              objDedup_any (allDefs o) x]
    · intro hnl s hs
      rw [hEq] at hs
      injection hs with hs2
      subst hs2
      exact scriptLines_tail _ _ hnl

theorem claim_C3_witness :
    (∃ gs : List (List String),
      (sortedTasks exSingleCode).mapM declsOf = Except.ok gs ∧
      scriptOf exSingleCode false true "C" = Except.ok
        ("#!/bin/bash\nset -o errexit -o nounset -o pipefail\n\nexport LC_ALL="
          ++ "C" ++ "\n\n" ++ joinSep "\n\n" (gs.map (joinSep "\n")) ++
          "\n\n\n" ++ (if true then "set -o xtrace" else "") ++ "\n" ++
          callOf exSingleCode ++ "\n") ∧
      (sortedTasks exSingleCode).Perm (scriptTasks exSingleCode) ∧
      (sortedTasks exSingleCode).Sorted sortRel ∧
      (∀ x : Obj, ((sortedTasks exSingleCode).any fun t => keyBeq x t) =
        (keyBeq x exSingleCode ||
          ((subsOf exSingleCode).any fun t => keyBeq x t))) ∧
      (((callOf exSingleCode).data.all fun ch => ch != '\n') = true →
        ∀ s : String, scriptOf exSingleCode false true "C" = Except.ok s →
          (scriptLines s).reverse.head? = some "" ∧
          (scriptLines s).reverse.tail.head? = some (callOf exSingleCode))) ∧
    ((callOf exSingleCode).data.all fun ch => ch != '\n') = true ∧
    isErr (scriptOf exSingleCode false true "C") = false :=
  ⟨claim_C3 exSingleCode false true "C" (by decide), by decide, by decide⟩

end Confit
